import Mathlib

/-!
Verification of the meeting-notes ingestion pipeline
(`meeting_notes_ingester.py`): shallow embedding of the extraction
helpers (priority classification, email resolution, pattern-based
extraction of action items and attendees, topic extraction) and of the
graph-materialization step (`store_in_neo4j`), together with theorems
settling the specification's claims about them.

Text is modelled as `List Char`.  Python regular-expression behaviour is
embedded per pattern family: every pattern used by the ingester is
anchored on a literal and its quantifier structure admits no essential
backtracking beyond what the specialised matchers below perform, so each
matcher reproduces `re` semantics for its pattern.
-/

namespace MeetingNotes

/-- Text as a list of characters. -/
abbrev Str := List Char

/-- Lower-casing of a single character (ASCII, as in the texts at issue). -/
def lc (c : Char) : Char := c.toLower

/-- Python `\s` / `str.strip` whitespace: space, tab, newline, CR, VT, FF. -/
def isPySpace (c : Char) : Bool :=
  c == ' ' || c == '\t' || c == '\n' || c == '\r' || c == '\x0b' || c == '\x0c'

/-- Python `\w` word character (ASCII range: letters, digits, underscore). -/
def isWordChar (c : Char) : Bool := c.isAlphanum || c == '_'

/-- Does `p` occur as the initial segment of `l` (exact characters)? -/
def startsWith : Str → Str → Bool
  | [], _ => true
  | _ :: _, [] => false
  | p :: ps, c :: cs => (p == c) && startsWith ps cs

/-- Case-insensitive variant of `startsWith`. -/
def startsWithCI : Str → Str → Bool
  | [], _ => true
  | _ :: _, [] => false
  | p :: ps, c :: cs => (lc p == lc c) && startsWithCI ps cs

/-- Substring containment, `pat` occurring anywhere in the second list
(Python's `pat in s`). -/
def containsSub (pat : Str) : Str → Bool
  | [] => startsWith pat []
  | c :: t => startsWith pat (c :: t) || containsSub pat t

/-- Python `str.strip()`: drop leading and trailing whitespace. -/
def pyStrip (l : Str) : Str :=
  ((l.dropWhile isPySpace).reverse.dropWhile isPySpace).reverse

/-- Accumulator pass for `pySplitWs`; `cur` holds the current word in
reverse. -/
def pySplitWsAux (cur : Str) : Str → List Str
  | [] => if cur.isEmpty then [] else [cur.reverse]
  | c :: t =>
    if isPySpace c then
      if cur.isEmpty then pySplitWsAux [] t
      else cur.reverse :: pySplitWsAux [] t
    else pySplitWsAux (c :: cur) t

/-- Python `str.split()` with no separator: split on runs of whitespace,
discarding empty pieces. -/
def pySplitWs (l : Str) : List Str := pySplitWsAux [] l

/-! ## Priority classification (`_determine_priority`) -/

/-- Keywords of the high-priority set, in source order. -/
def highIndicators : List Str :=
  ["urgent".data, "critical".data, "important".data, "asap".data,
   "high priority".data]

/-- Keywords of the medium-priority set, in source order. -/
def mediumIndicators : List Str :=
  ["medium".data, "moderate".data, "normal".data]

/-- Keywords of the low-priority set, in source order. -/
def lowIndicators : List Str :=
  ["low".data, "minor".data, "when possible".data, "if time permits".data]

/-- Embedding of `_determine_priority`: lower-case the sentence, test the
three keyword sets in the dictionary's insertion order high, medium, low,
return the label of the first set with a substring hit, else `medium`. -/
def determinePriority (sentence : Str) : Str :=
  let sl := sentence.map lc
  if highIndicators.any (fun k => containsSub k sl) then "high".data
  else if mediumIndicators.any (fun k => containsSub k sl) then "medium".data
  else if lowIndicators.any (fun k => containsSub k sl) then "low".data
  else "medium".data

/-! ## Email resolution (`_extract_email`)

The pattern is `re.escape(first_token) .*? ( LOCAL+ @ DOMAIN+ \. [a-zA-Z]{2,} )`
searched with `re.search` and `re.IGNORECASE`.  `re.search` tries start
positions left to right; the escaped token is a literal; `.*?` extends the
gap one non-newline character at a time; inside the e-mail group, `LOCAL+`
admits no backtracking (`@` is not a LOCAL character) and `DOMAIN+` is
greedy with backtracking over the position of the literal dot. -/

/-- Characters of the e-mail local part, `[a-zA-Z0-9._%+-]`. -/
def emailLocalChar (c : Char) : Bool :=
  c.isAlpha || c.isDigit || c == '.' || c == '_' || c == '%' || c == '+' || c == '-'

/-- Characters of the e-mail domain part, `[a-zA-Z0-9.-]`. -/
def emailDomainChar (c : Char) : Bool :=
  c.isAlpha || c.isDigit || c == '.' || c == '-'

/-- Backtracking over the split between `DOMAIN+` and `\.[a-zA-Z]{2,}`:
try the domain length `k+1` first (longest), then shorter.  `rest` is the
text after the `@`. -/
def emailDomainMatch (rest : Str) : Nat → Option Str
  | 0 => none
  | k + 1 =>
    match rest.drop (k + 1) with
    | '.' :: tl =>
      let tld := tl.takeWhile Char.isAlpha
      if 2 ≤ tld.length then some (rest.take (k + 1) ++ '.' :: tld)
      else emailDomainMatch rest k
    | _ => emailDomainMatch rest k

/-- Match of the e-mail group at the head of `l`; returns the matched
e-mail text. -/
def matchEmailAt (l : Str) : Option Str :=
  let a := l.takeWhile emailLocalChar
  if a.isEmpty then none
  else
    match l.drop a.length with
    | '@' :: rest =>
      (match emailDomainMatch rest (rest.takeWhile emailDomainChar).length with
       | some dom => some (a ++ '@' :: dom)
       | none => none)
    | _ => none

/-- Lazy gap `.*?` followed by the e-mail group: try the e-mail at the
current position, else consume one non-newline character and retry. -/
def tryGaps : Str → Option Str
  | [] => matchEmailAt []
  | c :: t =>
    match matchEmailAt (c :: t) with
    | some e => some e
    | none => if c == '\n' then none else tryGaps t

/-- Scan of `re.search` start positions, left to right: at each position
match the name token case-insensitively, then run the lazy gap search. -/
def searchNameThenEmail (tok : Str) : Str → Option Str
  | [] => if startsWithCI tok [] then tryGaps [] else none
  | c :: t =>
    match (if startsWithCI tok (c :: t) then tryGaps ((c :: t).drop tok.length)
           else none) with
    | some e => some e
    | none => searchNameThenEmail tok t

/-- Embedding of `_extract_email`: split the name on whitespace; if there
is a first token, search the document for that token followed at lazy
unbounded (non-newline) distance by an e-mail-shaped token. -/
def extractEmail (name : Str) (text : Str) : Option Str :=
  match pySplitWs name with
  | [] => none
  | tok :: _ => searchNameThenEmail tok text

/-- Does an e-mail-shaped token occur (start) anywhere in the text? -/
def containsEmailToken : Str → Bool
  | [] => false
  | c :: t => (matchEmailAt (c :: t)).isSome || containsEmailToken t

/-! ## Graph model and `store_in_neo4j`

Nodes carry the properties the ingester's Cypher queries write.  Each
`session.run` call is embedded as one state transformer with Cypher's
row-by-row clause semantics: a leading `MATCH` yields one row per
matching node (zero rows mean the rest of the query does not execute),
`CREATE` runs once per row, `MERGE` creates at most one node across the
rows, and a `WITH ... WHERE` filters the row stream. -/

/-- Node payloads of the five labels of the schema. -/
inductive NodeData where
  | meeting (title mtype date : Str)
  | topic (name : Str)
  | person (name : Str) (email : Option Str)
  | actionItem (description status priority : Str)
  | decision (content : Str)
deriving DecidableEq

/-- A node with its graph-wide identity. -/
structure GNode where
  id : Nat
  data : NodeData
deriving DecidableEq

/-- A directed, typed edge between node identities. -/
structure GEdge where
  src : Nat
  rel : Str
  dst : Nat
deriving DecidableEq

/-- The graph store's state. -/
structure Graph where
  nextId : Nat
  nodes : List GNode
  edges : List GEdge
deriving DecidableEq

/-- The empty store. -/
def emptyGraph : Graph := ⟨0, [], []⟩

/-- Relationship type of topic edges. -/
def relDiscusses : Str := "DISCUSSES".data

/-- Relationship type of action-item ownership edges. -/
def relHasActionItem : Str := "HAS_ACTION_ITEM".data

/-- Relationship type of assignment edges. -/
def relAssignedTo : Str := "ASSIGNED_TO".data

/-- Relationship type of decision edges. -/
def relMadeDecision : Str := "MADE_DECISION".data

/-- Relationship type of attendance edges. -/
def relHasAttendee : Str := "HAS_ATTENDEE".data

/-- Match of the pattern `(m:Meeting {title: ...})`. -/
def NodeData.isMeetingTitled (title : Str) : NodeData → Bool
  | meeting t _ _ => t == title
  | _ => false

/-- Match of the pattern `(t:Topic {name: ...})`. -/
def NodeData.isTopicNamed (name : Str) : NodeData → Bool
  | topic n => n == name
  | _ => false

/-- Match of the pattern `(p:Person {name: ...})`: keyed by name only,
the e-mail property is unconstrained. -/
def NodeData.isPersonNamed (name : Str) : NodeData → Bool
  | person n _ => n == name
  | _ => false

/-- Label test for Meeting nodes. -/
def NodeData.isMeeting : NodeData → Bool
  | meeting _ _ _ => true
  | _ => false

/-- Label test for Topic nodes. -/
def NodeData.isTopic : NodeData → Bool
  | topic _ => true
  | _ => false

/-- Label test for Person nodes. -/
def NodeData.isPerson : NodeData → Bool
  | person _ _ => true
  | _ => false

/-- Label test for ActionItem nodes. -/
def NodeData.isAction : NodeData → Bool
  | actionItem _ _ _ => true
  | _ => false

/-- Label test for Decision nodes. -/
def NodeData.isDecision : NodeData → Bool
  | decision _ => true
  | _ => false

/-- `CREATE` of a node: a fresh identity, no existence check. -/
def Graph.addNode (g : Graph) (d : NodeData) : Graph × Nat :=
  (⟨g.nextId + 1, g.nodes ++ [⟨g.nextId, d⟩], g.edges⟩, g.nextId)

/-- `CREATE` of edges. -/
def Graph.addEdges (g : Graph) (es : List GEdge) : Graph :=
  ⟨g.nextId, g.nodes, g.edges ++ es⟩

/-- Rows of `MATCH (m:Meeting {title: $title})`: the identities of every
Meeting node carrying the title, in store order. -/
def Graph.meetingIds (g : Graph) (title : Str) : List Nat :=
  (g.nodes.filter (fun n => n.data.isMeetingTitled title)).map GNode.id

/-- `MERGE` on a node pattern: reuse the first node satisfying the
pattern, else create one with exactly the pattern's properties. -/
def Graph.mergeNode (g : Graph) (p : NodeData → Bool) (d : NodeData) : Graph × Nat :=
  match g.nodes.find? (fun n => p n.data) with
  | some n => (g, n.id)
  | none => g.addNode d

/-- Is there a node satisfying `p`? -/
def Graph.hasNode (g : Graph) (p : NodeData → Bool) : Bool :=
  g.nodes.any (fun n => p n.data)

/-- Count of the nodes satisfying `p`. -/
def Graph.countNodes (g : Graph) (p : NodeData → Bool) : Nat :=
  (g.nodes.filter (fun n => p n.data)).length

/-- Property update performed by `SET p.email = email` on the matched
node's payload. -/
def emailUpdate (e : Str) : NodeData → NodeData
  | .person nm _ => .person nm (some e)
  | d => d

/-- `SET p.email = email` on the node with identity `pid`. -/
def Graph.setEmail (g : Graph) (pid : Nat) (e : Str) : Graph :=
  ⟨g.nextId, g.nodes.map (fun n =>
      if n.id == pid then ⟨n.id, emailUpdate e n.data⟩ else n), g.edges⟩

/-- Extracted action item as passed to the store (`description`,
`assignee`, `priority`, `status`; the extractor always sets priority and
status, so the query's `COALESCE` defaults reduce to the given values). -/
structure AItem where
  description : Str
  assignee : Option Str
  priority : Str
  status : Str
deriving DecidableEq

/-- Extracted attendee as passed to the store. -/
structure Attendee where
  name : Str
  email : Option Str
deriving DecidableEq

/-- Embedding of the first query: `CREATE (m:Meeting {...})`. -/
def createMeetingQ (g : Graph) (title mtype date : Str) : Graph :=
  (g.addNode (.meeting title mtype date)).1

/-- Embedding of the topic query: `MATCH (m:Meeting {title}) MERGE
(t:Topic {name}) CREATE (m)-[:DISCUSSES]->(t)`.  One DISCUSSES edge per
matched Meeting row. -/
def linkTopicQ (g : Graph) (title topic : Str) : Graph :=
  let ms := g.meetingIds title
  if ms.isEmpty then g
  else
    let r := g.mergeNode (fun d => d.isTopicNamed topic) (.topic topic)
    r.1.addEdges (ms.map fun m => ⟨m, relDiscusses, r.2⟩)

/-- One Meeting row of the action-item query: `CREATE (a:ActionItem
{...}) CREATE (m)-[:HAS_ACTION_ITEM]->(a) MERGE (p:Person {name:
$assignee}) CREATE (a)-[:ASSIGNED_TO]->(p)`. -/
def actionRow (item : AItem) (asg : Str) (g : Graph) (m : Nat) : Graph :=
  let r1 := g.addNode (.actionItem item.description item.status item.priority)
  let g2 := r1.1.addEdges [⟨m, relHasActionItem, r1.2⟩]
  let r2 := g2.mergeNode (fun d => d.isPersonNamed asg) (.person asg none)
  r2.1.addEdges [⟨r1.2, relAssignedTo, r2.2⟩]

/-- Embedding of the action-item query, run once per matched Meeting
row.  The caller's truthiness guard ensures a non-null assignee. -/
def actionItemQ (g : Graph) (title : Str) (item : AItem) : Graph :=
  match item.assignee with
  | none => g
  | some asg => (g.meetingIds title).foldl (actionRow item asg) g

/-- One Meeting row of the decision query: `CREATE (d:Decision
{content}) CREATE (m)-[:MADE_DECISION]->(d)`. -/
def decisionRow (content : Str) (h : Graph) (m : Nat) : Graph :=
  let r := h.addNode (.decision content)
  r.1.addEdges [⟨m, relMadeDecision, r.2⟩]

/-- Embedding of the decision query: `MATCH (m:Meeting {title}) CREATE
(d:Decision {content}) CREATE (m)-[:MADE_DECISION]->(d)`, run once per
matched Meeting row. -/
def decisionQ (g : Graph) (title content : Str) : Graph :=
  (g.meetingIds title).foldl (decisionRow content) g

/-- Embedding of the attendee query: `MATCH (m:Meeting {title}) MERGE
(p:Person {name}) WITH m, p, $email as email WHERE email IS NOT NULL SET
p.email = email WITH m, p CREATE (m)-[:HAS_ATTENDEE]->(p)`.  The `WITH
... WHERE` filters the row stream: with a null e-mail parameter zero
rows remain, so neither the `SET` nor the edge `CREATE` executes, while
the `MERGE` has already run. -/
def attendeeQ (g : Graph) (title : Str) (att : Attendee) : Graph :=
  let ms := g.meetingIds title
  if ms.isEmpty then g
  else
    let r := g.mergeNode (fun d => d.isPersonNamed att.name) (.person att.name none)
    match att.email with
    | none => r.1
    | some e =>
      (r.1.setEmail r.2 e).addEdges (ms.map fun m => ⟨m, relHasAttendee, r.2⟩)

/-- Python truthiness of a string value. -/
def truthyStr (s : Str) : Bool := !s.isEmpty

/-- Python truthiness of an optional string value (`None` is falsy). -/
def truthyOptStr : Option Str → Bool
  | none => false
  | some s => !s.isEmpty

/-- Guarded processing of one topic (`if topic:`). -/
def topicStep (title : Str) (g : Graph) (t : Str) : Graph :=
  if truthyStr t then linkTopicQ g title t else g

/-- Guarded processing of one action item
(`if item['description'] and item['assignee']:`). -/
def actionItemStep (title : Str) (g : Graph) (it : AItem) : Graph :=
  if truthyStr it.description && truthyOptStr it.assignee then
    actionItemQ g title it
  else g

/-- Guarded processing of one decision (`if decision:`). -/
def decisionStep (title : Str) (g : Graph) (d : Str) : Graph :=
  if truthyStr d then decisionQ g title d else g

/-- Guarded processing of one attendee (`if attendee['name']:`). -/
def attendeeStep (title : Str) (g : Graph) (a : Attendee) : Graph :=
  if truthyStr a.name then attendeeQ g title a else g

/-- Embedding of `store_in_neo4j`: meeting creation, then the topic,
action-item, decision and attendee loops, in source order. -/
def storeInNeo4j (g : Graph) (title mtype date : Str)
    (topics : List Str) (actionItems : List AItem)
    (decisions : List Str) (attendees : List Attendee) : Graph :=
  let g1 := createMeetingQ g title mtype date
  let g2 := topics.foldl (topicStep title) g1
  let g3 := actionItems.foldl (actionItemStep title) g2
  let g4 := decisions.foldl (decisionStep title) g3
  attendees.foldl (attendeeStep title) g4

/-! ## Pattern extraction

Each anchor-pattern family of the source is embedded as a matcher that
attempts the pattern at the head of the text, returning the first
capture group and the number of characters consumed by the whole match.
`finditerCaps` then reproduces `re.finditer`'s left-to-right scan of
non-overlapping matches.  All pattern matching is case-insensitive
(`re.IGNORECASE`), as in the source. -/

/-- Fuel-indexed scan of `re.finditer`: try the matcher at each position
left to right; on a match, emit the capture and continue after the match
(zero-width matches advance by one position).  Every step strictly
shortens the text, so fuel `length + 1` is never exhausted. -/
def finditerCapsFuel (m : Str → Option (Str × Nat)) : Nat → Str → List Str
  | 0, _ => []
  | _ + 1, [] =>
    (match m [] with
     | some (cap, _) => [cap]
     | none => [])
  | f + 1, c :: t =>
    match m (c :: t) with
    | some (cap, n) => cap :: finditerCapsFuel m f ((c :: t).drop (max n 1))
    | none => finditerCapsFuel m f t

/-- Scan of `re.finditer` over the whole text. -/
def finditerCaps (m : Str → Option (Str × Nat)) (l : Str) : List Str :=
  finditerCapsFuel m (l.length + 1) l

/-- Common tail `s? :? \s* (.*)` of the anchor patterns.  `r` is the
text after the anchor word, `n` the characters consumed so far; returns
the capture (`(.*)`, up to the end of the line) and the total consumed.
Each optional piece is greedy and, failing, cannot be rescued by
backtracking, since the following pieces always match. -/
def anchorTail (optS : Bool) (r : Str) (n : Nat) : Str × Nat :=
  let s1 : Str × Nat :=
    if optS then
      match r with
      | c :: t => if lc c == 's' then (t, n + 1) else (r, n)
      | [] => (r, n)
    else (r, n)
  let s2 : Str × Nat :=
    match s1.1 with
    | ':' :: t => (t, s1.2 + 1)
    | _ => (s1.1, s1.2)
  let ws := s2.1.takeWhile isPySpace
  let r4 := s2.1.drop ws.length
  let cap := r4.takeWhile (fun c => c != '\n')
  (cap, s2.2 + ws.length + cap.length)

/-- Matcher for the anchor patterns of shape `WORD s? :? \s* (.*)`
(with `optS` false when the pattern has no optional plural `s`). -/
def matchAnchorAt (w : Str) (optS : Bool) (l : Str) : Option (Str × Nat) :=
  if startsWithCI w l then some (anchorTail optS (l.drop w.length) w.length)
  else none

/-- Matcher for `action(?:\s+item)?s?:?\s*(.*)`: the optional group
`(?:\s+item)` matches exactly when a whitespace run followed by `item`
follows the anchor. -/
def matchActionAnchor (l : Str) : Option (Str × Nat) :=
  if startsWithCI "action".data l then
    let r1 := l.drop 6
    let ws1 := r1.takeWhile isPySpace
    let rAfter := r1.drop ws1.length
    if !ws1.isEmpty && startsWithCI "item".data rAfter then
      some (anchorTail true (rAfter.drop 4) (6 + ws1.length + 4))
    else some (anchorTail true r1 6)
  else none

/-- Matcher for `(?:assigned|assigned to|responsible):\s*(.*)`: ordered
alternation, each branch requiring a literal colon. -/
def matchAssignedAnchor (l : Str) : Option (Str × Nat) :=
  let tryAlt : Str → Option (Str × Nat) := fun w =>
    if startsWithCI w l then
      match l.drop w.length with
      | ':' :: t =>
        let ws := t.takeWhile isPySpace
        let r := t.drop ws.length
        let cap := r.takeWhile (fun c => c != '\n')
        some (cap, w.length + 1 + ws.length + cap.length)
      | _ => none
    else none
  ((tryAlt "assigned".data).orElse fun _ =>
    (tryAlt "assigned to".data).orElse fun _ =>
      tryAlt "responsible".data)

/-- First pattern of an ordered alternation of literal keywords matching
case-insensitively at the head of `l`. -/
def firstKeywordAt (ks : List Str) (l : Str) : Option Str :=
  ks.find? (fun k => startsWithCI k l)

/-- Keywords of the first alternation of the verb action pattern. -/
def verbAux : List Str := ["will".data, "shall".data, "to".data]

/-- Keywords of the second alternation of the verb action pattern. -/
def verbMain : List Str :=
  ["handle".data, "do".data, "implement".data, "create".data,
   "setup".data, "prepare".data]

/-- Matcher for `(\w+)\s+(?:will|shall|to)\s+(?:handle|do|implement|
create|setup|prepare)(.*)`: the first capture group is the `\w+` subject
token.  Both `\w+` and the `\s+` runs are forced maximal (a shorter run
leaves a character the next piece cannot match), the keyword
alternations have pairwise distinct initial letters, and the trailing
`(.*)` always matches, so the matcher is deterministic. -/
def matchVerbAction (l : Str) : Option (Str × Nat) :=
  let w := l.takeWhile isWordChar
  if w.isEmpty then none
  else
    let r1 := l.drop w.length
    let ws1 := r1.takeWhile isPySpace
    if ws1.isEmpty then none
    else
      let r2 := r1.drop ws1.length
      match firstKeywordAt verbAux r2 with
      | none => none
      | some k1 =>
        let r3 := r2.drop k1.length
        let ws2 := r3.takeWhile isPySpace
        if ws2.isEmpty then none
        else
          let r4 := r3.drop ws2.length
          match firstKeywordAt verbMain r4 with
          | none => none
          | some k2 =>
            let r5 := r4.drop k2.length
            let cap2 := r5.takeWhile (fun c => c != '\n')
            some (w, w.length + ws1.length + k1.length + ws2.length +
                       k2.length + cap2.length)

/-- The action-pattern table `self.action_patterns`, in source order. -/
def actionMatchers : List (Str → Option (Str × Nat)) :=
  [matchActionAnchor, matchAnchorAt "todo".data false,
   matchAssignedAnchor, matchVerbAction]

/-- A named entity as produced by the external NLP engine. -/
structure Entity where
  text : Str
  label : Str
deriving DecidableEq

/-- The external NLP engine's named-entity recognition (spaCy
`doc.ents`): document to entities in model output order. -/
abbrev NerFn := Str → List Entity

/-- The external sentence segmenter (spaCy `doc.sents`). -/
abbrev SegFn := Str → List Str

/-- Matcher of the assignee fallback `assigned to:?\s*(\w+)` at the head
of `l`, returning the `\w+` capture. -/
def matchAssignedToAt (l : Str) : Option Str :=
  if startsWithCI "assigned to".data l then
    let r1 := l.drop 11
    let r2 := match r1 with
      | ':' :: t => t
      | _ => r1
    let r3 := r2.drop (r2.takeWhile isPySpace).length
    let w := r3.takeWhile isWordChar
    if w.isEmpty then none else some w
  else none

/-- Scan of `re.search` for the assignee fallback pattern. -/
def searchAssignedTo : Str → Option Str
  | [] => none
  | c :: t =>
    match matchAssignedToAt (c :: t) with
    | some w => some w
    | none => searchAssignedTo t

/-- Embedding of `_extract_assignee`: the first PERSON entity of the
sentence, else the `assigned to` regex fallback, else none. -/
def extractAssignee (ner : NerFn) (sentence : Str) : Option Str :=
  match (ner sentence).find? (fun e => e.label == "PERSON".data) with
  | some e => some e.text
  | none => searchAssignedTo sentence

/-- Action items contributed by one (already stripped) sentence: every
pattern family is tried, every match with a non-empty stripped first
capture contributes one item. -/
def sentenceActions (ner : NerFn) (sentence : Str) : List AItem :=
  actionMatchers.flatMap (fun m =>
    (finditerCaps m sentence).filterMap (fun cap =>
      let actionText := pyStrip cap
      if actionText.isEmpty then none
      else some ⟨actionText, extractAssignee ner sentence,
                 determinePriority sentence, "pending".data⟩))

/-- Embedding of `extract_action_items`: segment into sentences, strip
each, collect the per-sentence items. -/
def extractActionItems (ner : NerFn) (seg : SegFn) (text : Str) : List AItem :=
  ((seg text).map pyStrip).flatMap (sentenceActions ner)

/-! ## Attendee extraction -/

/-- Splitting of an attendee capture by `re.split(r'[,;]|\sand\s', s)`
(`cur` holds the current piece in reverse; the `[,;]` alternative is
tried before `\sand\s`, and the `and` literal is case-sensitive). -/
def pySplitSepAux (cur : Str) : Str → List Str
  | [] => [cur.reverse]
  | c :: t@('a' :: 'n' :: 'd' :: s :: r) =>
    if c == ',' || c == ';' then cur.reverse :: pySplitSepAux [] t
    else if isPySpace c then
      if isPySpace s then cur.reverse :: pySplitSepAux [] r
      else pySplitSepAux (c :: cur) t
    else pySplitSepAux (c :: cur) t
  | c :: t =>
    if c == ',' || c == ';' then cur.reverse :: pySplitSepAux [] t
    else pySplitSepAux (c :: cur) t

/-- Split of an attendee capture into name candidates. -/
def pySplitSep (l : Str) : List Str := pySplitSepAux [] l

/-- Attendees contributed by one anchor capture (`if attendee_text:`,
then split, strip, keep non-empty, resolve the e-mail from the whole
document). -/
def attendeesFromCapture (text cap : Str) : List Attendee :=
  if cap.isEmpty then []
  else (pySplitSep cap).filterMap (fun nm0 =>
    let nm := pyStrip nm0
    if nm.isEmpty then none else some ⟨nm, extractEmail nm text⟩)

/-- The attendee-pattern table `self.attendee_patterns`, in source
order (`attendees?:?`, `participants?:?`, `present:?`). -/
def attendeeMatchers : List (Str → Option (Str × Nat)) :=
  [matchAnchorAt "attendee".data true,
   matchAnchorAt "participant".data true,
   matchAnchorAt "present".data false]

/-- Attendees found by the explicit anchor patterns, scanned over the
whole document. -/
def patternAttendees (text : Str) : List Attendee :=
  attendeeMatchers.flatMap (fun m =>
    (finditerCaps m text).flatMap (attendeesFromCapture text))

/-- Embedding of `extract_attendees`: the anchor patterns first; if they
produce nothing, the PERSON entities of the whole document. -/
def extractAttendees (ner : NerFn) (text : Str) : List Attendee :=
  let attendees := patternAttendees text
  if attendees.isEmpty then
    ((ner text).filter (fun e => e.label == "PERSON".data)).map
      (fun e => ⟨e.text, extractEmail e.text text⟩)
  else attendees

/-! ## Topic extraction and the processing pipeline -/

/-- The external keyphrase-scoring capability (KeyBERT's
`extract_keywords`, called with 1-2-gram candidates, English stop words,
max-sum diversification over 20 candidates): document and `top_n` to
ranked (phrase, score) pairs. -/
structure KeyphraseEngine (Score : Type) where
  extractKeywords : Str → Nat → List (Str × Score)

/-- Embedding of `extract_topics`: the engine's top-5 phrases, scores
dropped. -/
def extractTopics {Score : Type} (eng : KeyphraseEngine Score)
    (text : Str) : List Str :=
  (eng.extractKeywords text 5).map Prod.fst

/-- The structured record returned by `process_meeting_notes`. -/
structure Record where
  topics : List Str
  actionItems : List AItem
  decisions : List Str
  attendees : List Attendee
deriving DecidableEq

/-- The fallible stages `process_meeting_notes` sequences: the four
extraction calls (external NLP and keyphrase engines may raise) and the
persistence call (the graph store may raise), each returning a result or
an error of type `E`. -/
structure Pipeline (E : Type) where
  topicsStage : Str → Except E (List Str)
  actionsStage : Str → Except E (List AItem)
  decisionsStage : Str → Except E (List Str)
  attendeesStage : Str → Except E (List Attendee)
  storeStage : Str → Str → Str → List Str → List AItem → List Str →
    List Attendee → Except E Unit

/-- Embedding of `process_meeting_notes`: run the extraction stages in
source order, persist, and return the structured record; the function
installs no handler, so a failing stage's error propagates unchanged. -/
def processMeetingNotes {E : Type} (p : Pipeline E)
    (notesText title mtype date : Str) : Except E Record := do
  let topics ← p.topicsStage notesText
  let actionItems ← p.actionsStage notesText
  let decisions ← p.decisionsStage notesText
  let attendees ← p.attendeesStage notesText
  let _ ← p.storeStage title mtype date topics actionItems decisions attendees
  pure ⟨topics, actionItems, decisions, attendees⟩

/-! ## Concrete fixtures for closed evaluations -/

/-- Fixture named-entity output: one PERSON and one non-person entity. -/
def nerAlice : NerFn := fun _ =>
  [⟨"Alice".data, "PERSON".data⟩, ⟨"Paris".data, "GPE".data⟩]

/-- Fixture named-entity output recognizing Bob. -/
def nerBob : NerFn := fun _ => [⟨"Bob".data, "PERSON".data⟩]

/-- Fixture pipeline whose topic-extraction stage fails with an error
that does not mention any document identity. -/
def failingPipeline : Pipeline Str :=
  ⟨fun _ => .error "boom".data, fun _ => .ok [], fun _ => .ok [],
   fun _ => .ok [], fun _ _ _ _ _ _ _ => .ok ()⟩

/-- Fixture pipeline with all stages succeeding. -/
def okPipeline : Pipeline Str :=
  ⟨fun _ => .ok ["db".data], fun _ => .ok [], fun _ => .ok [],
   fun _ => .ok [⟨"Ann".data, none⟩], fun _ _ _ _ _ _ _ => .ok ()⟩

/-- Fixture keyphrase engine returning at most `top_n` phrases from a
fixed non-empty, duplicate-free pool. -/
def engTake : KeyphraseEngine Int :=
  ⟨fun _ n => List.take n [("database migration".data, 1)]⟩

/-- Fixture action item with description and resolved assignee. -/
def itemBob : AItem :=
  ⟨"cache".data, some "Bob".data, "medium".data, "pending".data⟩

/-- Fixture graph holding one Meeting node titled `T`. -/
def gMeet : Graph := createMeetingQ emptyGraph "T".data "t".data "d".data

/-- A node predicate insensitive to the e-mail property update (true of
every label- and name-level predicate of the schema). -/
def emailStable (p : NodeData → Bool) : Prop :=
  ∀ e d, p (emailUpdate e d) = p d

/-! # Theorems -/

/-! ## C7: priority classification -/

/-- C7: priority classification case-folds the sentence and tests the
three fixed keyword sets in the order high, medium, low, returning the
label of the first set with a matching keyword and `medium` when none
matches; in particular "This is urgent and also minor" classifies as
`high`. -/
theorem C7_priority_classification :
    (∀ s : Str,
      (highIndicators.any (fun k => containsSub k (s.map lc)) = true →
        determinePriority s = "high".data) ∧
      (highIndicators.any (fun k => containsSub k (s.map lc)) = false →
        mediumIndicators.any (fun k => containsSub k (s.map lc)) = true →
        determinePriority s = "medium".data) ∧
      (highIndicators.any (fun k => containsSub k (s.map lc)) = false →
        mediumIndicators.any (fun k => containsSub k (s.map lc)) = false →
        lowIndicators.any (fun k => containsSub k (s.map lc)) = true →
        determinePriority s = "low".data) ∧
      (highIndicators.any (fun k => containsSub k (s.map lc)) = false →
        mediumIndicators.any (fun k => containsSub k (s.map lc)) = false →
        lowIndicators.any (fun k => containsSub k (s.map lc)) = false →
        determinePriority s = "medium".data)) ∧
    determinePriority "This is urgent and also minor".data = "high".data := by
  constructor
  · intro s
    refine ⟨?_, ?_, ?_, ?_⟩ <;> intros <;> simp [determinePriority, *]
  · decide

/-- Witness for C7 at a concrete sentence containing only a low-set
keyword. -/
theorem C7_priority_classification_witness :
    determinePriority "low risk".data = "low".data :=
  (C7_priority_classification.1 "low risk".data).2.2.1
    (by decide) (by decide) (by decide)

/-! ## C4: e-mail resolution -/

/-- A successful lazy-gap search implies an e-mail-shaped token in the
scanned suffix. -/
theorem tryGaps_some {l e} (h : tryGaps l = some e) :
    containsEmailToken l = true := by
  induction l with
  | nil => simp [tryGaps, matchEmailAt] at h
  | cons c t ih =>
    unfold tryGaps at h
    cases hm : matchEmailAt (c :: t) with
    | some e' => simp [containsEmailToken, hm]
    | none =>
      rw [hm] at h
      by_cases hc : c == '\n'
      · simp [hc] at h
      · simp [hc] at h
        simp [containsEmailToken, ih h]

/-- E-mail-token containment is inherited from any suffix. -/
theorem containsEmailToken_cons {t} (c : Char)
    (h : containsEmailToken t = true) : containsEmailToken (c :: t) = true := by
  simp [containsEmailToken, h]

/-- E-mail-token containment is inherited from a dropped suffix. -/
theorem containsEmailToken_drop {l : Str} {n : Nat}
    (h : containsEmailToken (l.drop n) = true) : containsEmailToken l = true := by
  induction l generalizing n with
  | nil => simpa using h
  | cons c t ih =>
    cases n with
    | zero => simpa using h
    | succ m => exact containsEmailToken_cons c (ih (n := m) h)

/-- A successful name-then-email search implies an e-mail-shaped token
in the document. -/
theorem searchNameThenEmail_some {tok l e}
    (h : searchNameThenEmail tok l = some e) : containsEmailToken l = true := by
  induction l with
  | nil =>
    unfold searchNameThenEmail at h
    split at h
    · simp [tryGaps, matchEmailAt] at h
    · simp at h
  | cons c t ih =>
    unfold searchNameThenEmail at h
    split at h
    · rename_i e' heq
      split at heq
      · exact containsEmailToken_drop (tryGaps_some heq)
      · simp at heq
    · exact containsEmailToken_cons c (ih (by assumption))

/-- C4: the e-mail resolver searches from document start for the name's
first token followed, lazily and at unbounded non-newline distance, by
an e-mail-shaped token; a document containing no e-mail-shaped token
yields none, and the `Alice` example resolves to `alice@example.com`. -/
theorem C4_email_resolution :
    (∀ name text : Str, containsEmailToken text = false →
      extractEmail name text = none) ∧
    extractEmail "Alice".data
        "Contact Alice at alice@example.com for details".data =
      some "alice@example.com".data := by
  constructor
  · intro name text hnone
    cases hs : pySplitWs name with
    | nil => simp [extractEmail, hs]
    | cons tok rest =>
      cases he : searchNameThenEmail tok text with
      | none => simp [extractEmail, hs, he]
      | some e =>
        exact absurd (searchNameThenEmail_some he) (by simp [hnone])
  · decide

/-- Witness for C4 on a concrete document with no e-mail token. -/
theorem C4_email_resolution_witness :
    extractEmail "Bob".data "no at sign here".data = none :=
  C4_email_resolution.1 "Bob".data "no at sign here".data (by decide)

/-! ## C5: attendee fallback to named-entity recognition -/

/-- C5: when the anchor patterns produce no attendee, the attendee list
is exactly the PERSON entities recognized over the whole document (each
paired with its resolved e-mail). -/
theorem C5_attendee_ner_fallback (ner : NerFn) (text : Str)
    (h : patternAttendees text = []) :
    extractAttendees ner text =
      ((ner text).filter (fun e => e.label == "PERSON".data)).map
        (fun e => ⟨e.text, extractEmail e.text text⟩) := by
  simp [extractAttendees, h]

/-- Witness for C5 on a concrete document with no anchor line. -/
theorem C5_attendee_ner_fallback_witness :
    extractAttendees nerAlice "Alice met Bob.".data = [⟨"Alice".data, none⟩] := by
  rw [C5_attendee_ner_fallback nerAlice "Alice met Bob.".data (by decide)]
  decide

/-! ## C9: topic extraction bounds -/

/-- C9: `extract_topics` returns at most 5 phrases, each non-empty, with
no duplicate string — inherited from the external keyphrase engine's
contract (at most `top_n` ranked, non-empty, pairwise-distinct
phrases), since the code passes `top_n = 5` and strips the scores. -/
theorem C9_topics_bounded {Score : Type} (eng : KeyphraseEngine Score) (text : Str)
    (hlen : ∀ t n, (eng.extractKeywords t n).length ≤ n)
    (hne : ∀ t n, ∀ kw ∈ eng.extractKeywords t n, kw.1 ≠ [])
    (hnd : ∀ t n, ((eng.extractKeywords t n).map Prod.fst).Nodup) :
    (extractTopics eng text).length ≤ 5 ∧
    (∀ p ∈ extractTopics eng text, p ≠ []) ∧
    (extractTopics eng text).Nodup := by
  refine ⟨?_, ?_, hnd text 5⟩
  · simpa [extractTopics] using hlen text 5
  · intro p hp
    rw [extractTopics, List.mem_map] at hp
    obtain ⟨kw, hkw, rfl⟩ := hp
    exact hne text 5 kw hkw

/-- Witness for C9 with a concrete engine satisfying the contract. -/
theorem C9_topics_bounded_witness :
    (extractTopics engTake "notes".data).length ≤ 5 ∧
    (extractTopics engTake "notes".data).Nodup := by
  have h := C9_topics_bounded engTake "notes".data
    (fun t n => by simp [engTake])
    (fun t n kw hkw => by
      have hsub := List.take_subset n
        [("database migration".data, (1 : Int))] hkw
      simp only [List.mem_singleton] at hsub
      rw [hsub]
      decide)
    (fun t n => by cases n <;> simp [engTake])
  exact ⟨h.1, h.2.2⟩

/-! ## C3: pipeline success and error propagation -/

/-- C3 counterexample: a failing extraction stage propagates its own
error unchanged, and that error does not contain the document's title
(`process_meeting_notes` installs no handler and attaches nothing). -/
theorem C3_error_lacks_document_identity :
    processMeetingNotes failingPipeline "notes".data "Sprint 23 Review".data
        "Planning".data "2025-02-01".data = .error "boom".data ∧
    containsSub "Sprint 23 Review".data "boom".data = false :=
  ⟨rfl, by decide⟩

/-- C3 amended: on success `process_meeting_notes` returns the
structured record of the four extracted lists; a failing stage's error
propagates to the caller unchanged (no document identity is attached). -/
theorem C3_result_and_propagation {E : Type} (p : Pipeline E)
    (text title mtype date : Str) :
    (∀ ts as ds ats, p.topicsStage text = .ok ts →
      p.actionsStage text = .ok as → p.decisionsStage text = .ok ds →
      p.attendeesStage text = .ok ats →
      p.storeStage title mtype date ts as ds ats = .ok () →
      processMeetingNotes p text title mtype date = .ok ⟨ts, as, ds, ats⟩) ∧
    (∀ e, p.topicsStage text = .error e →
      processMeetingNotes p text title mtype date = .error e) ∧
    (∀ ts e, p.topicsStage text = .ok ts → p.actionsStage text = .error e →
      processMeetingNotes p text title mtype date = .error e) ∧
    (∀ ts as e, p.topicsStage text = .ok ts → p.actionsStage text = .ok as →
      p.decisionsStage text = .error e →
      processMeetingNotes p text title mtype date = .error e) ∧
    (∀ ts as ds e, p.topicsStage text = .ok ts → p.actionsStage text = .ok as →
      p.decisionsStage text = .ok ds → p.attendeesStage text = .error e →
      processMeetingNotes p text title mtype date = .error e) ∧
    (∀ ts as ds ats e, p.topicsStage text = .ok ts →
      p.actionsStage text = .ok as → p.decisionsStage text = .ok ds →
      p.attendeesStage text = .ok ats →
      p.storeStage title mtype date ts as ds ats = .error e →
      processMeetingNotes p text title mtype date = .error e) := by
  refine ⟨?_, ?_, ?_, ?_, ?_, ?_⟩ <;> intros <;>
    simp_all [processMeetingNotes, bind, Except.bind, pure, Except.pure]

/-- Witness for C3 with an all-success pipeline. -/
theorem C3_result_and_propagation_witness :
    processMeetingNotes okPipeline "n".data "T".data "ty".data "d".data =
      .ok ⟨["db".data], [], [], [⟨"Ann".data, none⟩]⟩ :=
  (C3_result_and_propagation okPipeline "n".data "T".data "ty".data "d".data).1
    ["db".data] [] [] [⟨"Ann".data, none⟩] rfl rfl rfl rfl rfl

/-! ## C1: attendee materialization -/

/-- C1: on an attendee whose e-mail was not resolved, the attendee query
merges the Person node but creates no HAS_ATTENDEE edge — the `WITH
... WHERE email IS NOT NULL` filters out every row, so the claim's "in
every case creates a has-attendee edge" fails on the code. -/
theorem C1_attendee_edge_dropped_without_email :
    (storeInNeo4j emptyGraph "Standup".data "Sync".data "2025-02-01".data
        [] [] [] [⟨"Bob".data, none⟩]).hasNode
      (fun d => d == .person "Bob".data none) = true ∧
    (storeInNeo4j emptyGraph "Standup".data "Sync".data "2025-02-01".data
        [] [] [] [⟨"Bob".data, none⟩]).edges = [] := by
  decide

/-! ## C2: which Meeting nodes receive edges -/

/-- C2 counterexample: re-ingesting under a title that already has a
Meeting node attaches a new DISCUSSES edge to the pre-existing Meeting
node (node 0, created by the first call) as well, because the queries
`MATCH` the Meeting by title. -/
theorem C2_preexisting_meeting_gets_edges :
    (((storeInNeo4j (storeInNeo4j emptyGraph "T".data "t".data "d".data
          ["db".data] [] [] []) "T".data "t".data "d".data
          ["db".data] [] [] []).edges.filter
        (fun e => e.src == 0)).length = 2) ∧
    (((storeInNeo4j emptyGraph "T".data "t".data "d".data
          ["db".data] [] [] []).edges.filter
        (fun e => e.src == 0)).length = 1) := by
  decide

/-! ## C6: counterexample to unconditional strict growth -/

/-- C6 counterexample: re-ingesting a document that yields no decision
leaves the Decision node count unchanged across the second run, so the
unconditional "strictly growing" part of the claim fails. -/
theorem C6_no_strict_growth_without_decisions :
    ¬ ((storeInNeo4j emptyGraph "T".data "t".data "d".data
          ["db".data] [] [] []).countNodes NodeData.isDecision <
       (storeInNeo4j (storeInNeo4j emptyGraph "T".data "t".data "d".data
            ["db".data] [] [] []) "T".data "t".data "d".data
          ["db".data] [] [] []).countNodes NodeData.isDecision) := by
  decide

/-! ## C10: the verb action pattern captures the subject -/

/-- A successful verb-pattern match captures exactly the leading `\w+`
token. -/
theorem matchVerbAction_cap {l cap : Str} {n : Nat}
    (h : matchVerbAction l = some (cap, n)) :
    cap = l.takeWhile isWordChar ∧ cap ≠ [] := by
  simp only [matchVerbAction] at h
  split at h
  · exact absurd h (by simp)
  · rename_i hw
    split at h
    · exact absurd h (by simp)
    · split at h
      · exact absurd h (by simp)
      · split at h
        · exact absurd h (by simp)
        · split at h
          · exact absurd h (by simp)
          · simp only [Option.some.injEq, Prod.mk.injEq] at h
            obtain ⟨hcap, -⟩ := h
            subst hcap
            refine ⟨rfl, fun hnil => ?_⟩
            rw [hnil] at hw
            simp at hw

/-- Every capture produced by the finditer scan satisfies any property
that every successful match of the underlying matcher satisfies. -/
theorem finditerCapsFuel_mem {m : Str → Option (Str × Nat)} {P : Str → Prop}
    (hm : ∀ l cap n, m l = some (cap, n) → P cap) :
    ∀ f s cap, cap ∈ finditerCapsFuel m f s → P cap := by
  intro f
  induction f with
  | zero => intro s cap h; simp [finditerCapsFuel] at h
  | succ f ih =>
    intro s cap h
    cases s with
    | nil =>
      unfold finditerCapsFuel at h
      cases hm0 : m [] with
      | some pr =>
        obtain ⟨cap', n'⟩ := pr
        rw [hm0] at h
        simp at h
        rw [h]
        exact hm [] cap' n' hm0
      | none => rw [hm0] at h; simp at h
    | cons c t =>
      unfold finditerCapsFuel at h
      cases hm0 : m (c :: t) with
      | some pr =>
        obtain ⟨cap', n'⟩ := pr
        rw [hm0] at h
        simp at h
        rcases h with h | h
        · rw [h]; exact hm _ cap' n' hm0
        · exact ih _ _ h
      | none =>
        rw [hm0] at h
        exact ih _ _ h

/-- A word character is not Python whitespace. -/
theorem word_not_pyspace {c : Char} (h : isWordChar c = true) :
    isPySpace c = false := by
  cases hs : isPySpace c
  · rfl
  · exfalso
    simp only [isPySpace, Bool.or_eq_true, beq_iff_eq] at hs
    rcases hs with ((((h1 | h1) | h1) | h1) | h1) | h1 <;> subst h1 <;>
      exact absurd h (by decide)

/-- Dropping leading whitespace is the identity on all-word-character
text. -/
theorem dropWhile_pyspace_of_word {l : Str} (h : l.all isWordChar = true) :
    l.dropWhile isPySpace = l := by
  cases l with
  | nil => rfl
  | cons c t =>
    simp only [List.all_cons, Bool.and_eq_true] at h
    simp [List.dropWhile_cons, word_not_pyspace h.1]

/-- Stripping is the identity on all-word-character text. -/
theorem pyStrip_of_word {l : Str} (h : l.all isWordChar = true) :
    pyStrip l = l := by
  have hrev : l.reverse.all isWordChar = true := by simpa using h
  simp [pyStrip, dropWhile_pyspace_of_word h, dropWhile_pyspace_of_word hrev]

/-- C10: on a sentence matched only by the verb action pattern, each
produced item's description is the pattern's first capture — the `\w+`
subject token alone, not the trailing action phrase; in particular "Bob
will implement the cache" yields the single description "Bob". -/
theorem C10_verb_pattern_subject_description :
    (∀ (ner : NerFn) (s : Str),
      finditerCaps matchActionAnchor s = [] →
      finditerCaps (matchAnchorAt "todo".data false) s = [] →
      finditerCaps matchAssignedAnchor s = [] →
      ((sentenceActions ner s).map AItem.description =
          finditerCaps matchVerbAction s ∧
        ∀ cap ∈ finditerCaps matchVerbAction s,
          cap ≠ [] ∧ cap.all isWordChar = true)) ∧
    sentenceActions nerBob "Bob will implement the cache".data =
      [⟨"Bob".data, some "Bob".data, "medium".data, "pending".data⟩] := by
  constructor
  · intro ner s h1 h2 h3
    have hcaps : ∀ cap ∈ finditerCaps matchVerbAction s,
        cap ≠ [] ∧ cap.all isWordChar = true := by
      intro cap hc
      refine finditerCapsFuel_mem
        (P := fun cap => cap ≠ [] ∧ cap.all isWordChar = true) ?_ _ s cap hc
      intro l cap' n' hm
      obtain ⟨hcap, hne⟩ := matchVerbAction_cap hm
      subst hcap
      refine ⟨hne, ?_⟩
      rw [List.all_eq_true]
      intro x hx
      exact List.mem_takeWhile_imp hx
    refine ⟨?_, hcaps⟩
    simp only [sentenceActions, actionMatchers, List.flatMap_cons,
      List.flatMap_nil, h1, h2, h3, List.filterMap_nil, List.nil_append,
      List.append_nil]
    generalize hq : finditerCaps matchVerbAction s = caps
    rw [hq] at hcaps
    clear hq h1 h2 h3
    revert hcaps
    induction caps with
    | nil => intro _; simp
    | cons cap rest ih =>
      intro hcaps
      have h0 := hcaps cap (by simp)
      have hstrip : pyStrip cap = cap := pyStrip_of_word h0.2
      have hne : cap.isEmpty = false := by
        cases cap
        · exact absurd rfl h0.1
        · rfl
      simp only [List.filterMap_cons, hstrip, hne, Bool.false_eq_true,
        if_false, List.map_cons]
      exact congrArg (cap :: ·) (ih fun c hc => hcaps c (by simp [hc]))
  · decide

/-- Witness for C10 at the example sentence. -/
theorem C10_verb_pattern_subject_description_witness :
    (sentenceActions nerBob "Bob will implement the cache".data).map
        AItem.description =
      finditerCaps matchVerbAction "Bob will implement the cache".data :=
  ((C10_verb_pattern_subject_description.1 nerBob
      "Bob will implement the cache".data
      (by decide) (by decide) (by decide)).1)

/-! ## Store lemmas: basic operations -/

/-- Node count after a `CREATE`. -/
theorem countNodes_addNode (g : Graph) (d : NodeData) (p : NodeData → Bool) :
    ((g.addNode d).1).countNodes p = g.countNodes p + (if p d then 1 else 0) := by
  simp only [Graph.addNode, Graph.countNodes, List.filter_append,
    List.length_append]
  cases hpd : p d <;> simp [hpd]

/-- Edge creation does not change node counts. -/
theorem countNodes_addEdges (g : Graph) (es : List GEdge) (p : NodeData → Bool) :
    (g.addEdges es).countNodes p = g.countNodes p := rfl

/-- Edge creation does not change the node list. -/
theorem nodes_addEdges (g : Graph) (es : List GEdge) :
    (g.addEdges es).nodes = g.nodes := rfl

/-- A `MERGE` whose pattern already has a matching node leaves the graph
unchanged. -/
theorem mergeNode_found {g : Graph} {q : NodeData → Bool} {d : NodeData}
    (hf : g.hasNode q = true) : (g.mergeNode q d).1 = g := by
  unfold Graph.mergeNode
  cases hfind : g.nodes.find? (fun n => q n.data) with
  | some n => rfl
  | none =>
    exfalso
    rw [List.find?_eq_none] at hfind
    rw [Graph.hasNode, List.any_eq_true] at hf
    obtain ⟨n, hn, hq⟩ := hf
    exact hfind n hn hq

/-- A `MERGE` does not change counts of nodes the created payload does
not satisfy. -/
theorem countNodes_mergeNode_not {g : Graph} {q : NodeData → Bool}
    {d : NodeData} {p : NodeData → Bool} (hpd : p d = false) :
    ((g.mergeNode q d).1).countNodes p = g.countNodes p := by
  unfold Graph.mergeNode
  cases g.nodes.find? (fun n => q n.data) with
  | some n => rfl
  | none => simp [countNodes_addNode, hpd]

/-- A `MERGE` never decreases a node count. -/
theorem countNodes_mergeNode_le (g : Graph) (q : NodeData → Bool)
    (d : NodeData) (p : NodeData → Bool) :
    g.countNodes p ≤ ((g.mergeNode q d).1).countNodes p := by
  unfold Graph.mergeNode
  cases g.nodes.find? (fun n => q n.data) with
  | some n => exact le_refl _
  | none => rw [countNodes_addNode]; omega

/-- The e-mail `SET` does not change counts of e-mail-stable node
predicates. -/
theorem countNodes_setEmail {p : NodeData → Bool} (g : Graph) (pid : Nat)
    (e : Str) (hp : emailStable p) :
    (g.setEmail pid e).countNodes p = g.countNodes p := by
  have hfp : ∀ x : GNode,
      p (if (x.id == pid) = true then GNode.mk x.id (emailUpdate e x.data)
         else x).data = p x.data := by
    intro x
    by_cases hx : (x.id == pid) = true
    · rw [if_pos hx]; exact hp e x.data
    · rw [if_neg hx]
  simp only [Graph.setEmail, Graph.countNodes]
  rw [List.filter_map, List.length_map]
  congr 1
  exact List.filter_congr fun x _ => hfp x

/-- Existence of a node is preserved by `CREATE`. -/
theorem hasNode_addNode_mono {g : Graph} {p : NodeData → Bool}
    (d : NodeData) (h : g.hasNode p = true) :
    ((g.addNode d).1).hasNode p = true := by
  simp only [Graph.hasNode, Graph.addNode, List.any_append] at *
  simp [h]

/-- A created node satisfying `p` makes `p` inhabited. -/
theorem hasNode_addNode_self {g : Graph} {d : NodeData}
    {p : NodeData → Bool} (hpd : p d = true) :
    ((g.addNode d).1).hasNode p = true := by
  simp [Graph.hasNode, Graph.addNode, List.any_append, List.any_cons, hpd]

/-- Existence of a node is preserved by `MERGE`. -/
theorem hasNode_mergeNode_mono {g : Graph} {q : NodeData → Bool}
    {d : NodeData} {p : NodeData → Bool} (h : g.hasNode p = true) :
    ((g.mergeNode q d).1).hasNode p = true := by
  unfold Graph.mergeNode
  cases g.nodes.find? (fun n => q n.data) with
  | some n => exact h
  | none => exact hasNode_addNode_mono _ h

/-- After a `MERGE` whose payload satisfies the pattern, the pattern is
inhabited. -/
theorem hasNode_mergeNode_self {g : Graph} {q : NodeData → Bool}
    {d : NodeData} (hqd : q d = true) :
    ((g.mergeNode q d).1).hasNode q = true := by
  unfold Graph.mergeNode
  cases hfind : g.nodes.find? (fun n => q n.data) with
  | some n =>
    have hq := List.find?_some hfind
    rw [Graph.hasNode, List.any_eq_true]
    exact ⟨n, List.mem_of_find?_eq_some hfind, hq⟩
  | none => exact hasNode_addNode_self hqd

/-- The e-mail `SET` preserves existence for e-mail-stable predicates. -/
theorem hasNode_setEmail {p : NodeData → Bool} (g : Graph) (pid : Nat)
    (e : Str) (hp : emailStable p) :
    (g.setEmail pid e).hasNode p = g.hasNode p := by
  have hfp : ∀ x : GNode,
      p (if (x.id == pid) = true then GNode.mk x.id (emailUpdate e x.data)
         else x).data = p x.data := by
    intro x
    by_cases hx : (x.id == pid) = true
    · rw [if_pos hx]; exact hp e x.data
    · rw [if_neg hx]
  simp only [Graph.setEmail, Graph.hasNode]
  rw [List.any_map]
  exact congrArg g.nodes.any (funext fun x => hfp x)

/-- Meeting rows after creating a non-Meeting (or differently titled)
node. -/
theorem meetingIds_addNode_not {g : Graph} {d : NodeData} {title : Str}
    (hd : d.isMeetingTitled title = false) :
    ((g.addNode d).1).meetingIds title = g.meetingIds title := by
  simp [Graph.addNode, Graph.meetingIds, List.filter_append, hd]

/-- Meeting rows after creating a Meeting node with the matched title. -/
theorem meetingIds_addNode_meeting (g : Graph) (title mtype date : Str) :
    ((g.addNode (.meeting title mtype date)).1).meetingIds title =
      g.meetingIds title ++ [g.nextId] := by
  simp [Graph.addNode, Graph.meetingIds, List.filter_append,
    NodeData.isMeetingTitled]

/-- Edge creation does not change the Meeting rows. -/
theorem meetingIds_addEdges (g : Graph) (es : List GEdge) (title : Str) :
    (g.addEdges es).meetingIds title = g.meetingIds title := rfl

/-- A `MERGE` of a non-Meeting payload does not change the Meeting
rows. -/
theorem meetingIds_mergeNode_not {g : Graph} {q : NodeData → Bool}
    {d : NodeData} {title : Str} (hd : d.isMeetingTitled title = false) :
    ((g.mergeNode q d).1).meetingIds title = g.meetingIds title := by
  unfold Graph.mergeNode
  cases g.nodes.find? (fun n => q n.data) with
  | some n => rfl
  | none => exact meetingIds_addNode_not hd

/-- The e-mail `SET` does not change the Meeting rows. -/
theorem meetingIds_setEmail (g : Graph) (pid : Nat) (e : Str) (title : Str) :
    (g.setEmail pid e).meetingIds title = g.meetingIds title := by
  have hfp : ∀ x : GNode,
      NodeData.isMeetingTitled title
        (if (x.id == pid) = true then GNode.mk x.id (emailUpdate e x.data)
         else x).data = NodeData.isMeetingTitled title x.data := by
    intro x
    by_cases hx : (x.id == pid) = true
    · rw [if_pos hx]; cases x.data <;> rfl
    · rw [if_neg hx]
  have hfid : ∀ x : GNode,
      (if (x.id == pid) = true then GNode.mk x.id (emailUpdate e x.data)
       else x).id = x.id := by
    intro x
    by_cases hx : (x.id == pid) = true
    · rw [if_pos hx]
    · rw [if_neg hx]
  simp only [Graph.setEmail, Graph.meetingIds]
  rw [List.filter_map, List.map_map]
  have h1 : List.filter
      ((fun n => NodeData.isMeetingTitled title n.data) ∘ fun n =>
        if (n.id == pid) = true then GNode.mk n.id (emailUpdate e n.data)
        else n) g.nodes =
      List.filter (fun n => NodeData.isMeetingTitled title n.data) g.nodes :=
    List.filter_congr fun x _ => hfp x
  rw [h1]
  exact List.map_congr_left fun x _ => hfid x

/-- Existence of a Meeting node with a title is exactly non-emptiness of
its Meeting rows. -/
theorem hasNode_eq_meetingIds (g : Graph) (title : Str) :
    g.hasNode (NodeData.isMeetingTitled title) =
      !(g.meetingIds title).isEmpty := by
  simp only [Graph.hasNode, Graph.meetingIds]
  generalize g.nodes = l
  induction l with
  | nil => rfl
  | cons n t ih =>
    by_cases h : n.data.isMeetingTitled title = true
    · simp [List.any_cons, List.filter_cons, h]
    · simp only [Bool.not_eq_true] at h
      simp [List.any_cons, List.filter_cons, h, ih]

/-- The title pattern is e-mail-stable. -/
theorem emailStable_isMeetingTitled (title : Str) :
    emailStable (NodeData.isMeetingTitled title) := fun e d => by
  cases d <;> rfl

/-- The topic-name pattern is e-mail-stable. -/
theorem emailStable_isTopicNamed (name : Str) :
    emailStable (NodeData.isTopicNamed name) := fun e d => by
  cases d <;> rfl

/-- The person-name pattern is e-mail-stable. -/
theorem emailStable_isPersonNamed (name : Str) :
    emailStable (NodeData.isPersonNamed name) := fun e d => by
  cases d <;> rfl

/-- The Meeting label is e-mail-stable. -/
theorem emailStable_isMeeting : emailStable NodeData.isMeeting := fun e d => by
  cases d <;> rfl

/-- The Topic label is e-mail-stable. -/
theorem emailStable_isTopic : emailStable NodeData.isTopic := fun e d => by
  cases d <;> rfl

/-- The Person label is e-mail-stable. -/
theorem emailStable_isPerson : emailStable NodeData.isPerson := fun e d => by
  cases d <;> rfl

/-- The ActionItem label is e-mail-stable. -/
theorem emailStable_isAction : emailStable NodeData.isAction := fun e d => by
  cases d <;> rfl

/-- The Decision label is e-mail-stable. -/
theorem emailStable_isDecision : emailStable NodeData.isDecision := fun e d => by
  cases d <;> rfl

/-! ## Store lemmas: per-query -/

/-- A generic fold-invariant principle for the store's loops. -/
theorem foldl_graph_pres {α : Type} {f : Graph → α → Graph} {P : Graph → Prop}
    (hstep : ∀ g a, P g → P (f g a)) :
    ∀ (l : List α) (g : Graph), P g → P (l.foldl f g) := by
  intro l
  induction l with
  | nil => intro g h; exact h
  | cons a t ih => intro g h; exact ih _ (hstep g a h)

/-- Truthiness of an optional string forces a non-empty value. -/
theorem truthyOptStr_some {x : Option Str} (h : truthyOptStr x = true) :
    ∃ s, x = some s ∧ s ≠ [] := by
  cases x with
  | none => simp [truthyOptStr] at h
  | some s =>
    cases s with
    | nil => simp [truthyOptStr] at h
    | cons c t => exact ⟨c :: t, rfl, by simp⟩

/-- With the Topic already present, the topic query adds no node. -/
theorem nodes_linkTopicQ_found {g : Graph} {title t : Str}
    (hf : g.hasNode (NodeData.isTopicNamed t) = true) :
    (linkTopicQ g title t).nodes = g.nodes := by
  simp only [linkTopicQ]
  cases hms : (g.meetingIds title).isEmpty
  · rw [if_neg (by simp), nodes_addEdges, mergeNode_found hf]
  · rw [if_pos rfl]

/-- Edge creation does not change node existence. -/
theorem hasNode_addEdges (g : Graph) (es : List GEdge) (p : NodeData → Bool) :
    (g.addEdges es).hasNode p = g.hasNode p := rfl

/-- The topic query does not change counts the topic payload does not
satisfy. -/
theorem countNodes_linkTopicQ_not {g : Graph} {title t : Str}
    {p : NodeData → Bool} (hpd : p (.topic t) = false) :
    (linkTopicQ g title t).countNodes p = g.countNodes p := by
  simp only [linkTopicQ]
  cases hms : (g.meetingIds title).isEmpty
  · rw [if_neg (by simp), countNodes_addEdges, countNodes_mergeNode_not hpd]
  · rw [if_pos rfl]

/-- The topic query never decreases a node count. -/
theorem countNodes_linkTopicQ_le (g : Graph) (title t : Str)
    (p : NodeData → Bool) :
    g.countNodes p ≤ (linkTopicQ g title t).countNodes p := by
  simp only [linkTopicQ]
  cases hms : (g.meetingIds title).isEmpty
  · rw [if_neg (by simp), countNodes_addEdges]
    exact countNodes_mergeNode_le g _ _ p
  · rw [if_pos rfl]

/-- The topic query preserves node existence. -/
theorem hasNode_linkTopicQ_mono {g : Graph} {title t : Str}
    {p : NodeData → Bool} (h : g.hasNode p = true) :
    (linkTopicQ g title t).hasNode p = true := by
  simp only [linkTopicQ]
  cases hms : (g.meetingIds title).isEmpty
  · rw [if_neg (by simp)]
    exact hasNode_mergeNode_mono h
  · rw [if_pos rfl]; exact h

/-- With at least one Meeting row, the topic query makes the Topic
exist. -/
theorem hasNode_linkTopicQ_topic {g : Graph} {title t : Str}
    (hms : (g.meetingIds title).isEmpty = false) :
    (linkTopicQ g title t).hasNode (NodeData.isTopicNamed t) = true := by
  simp only [linkTopicQ]
  rw [hms, if_neg (by simp)]
  exact hasNode_mergeNode_self (by simp [NodeData.isTopicNamed])

/-- The topic query preserves the Meeting rows of any title. -/
theorem meetingIds_linkTopicQ (g : Graph) (title t title' : Str) :
    (linkTopicQ g title t).meetingIds title' = g.meetingIds title' := by
  simp only [linkTopicQ]
  cases hms : (g.meetingIds title).isEmpty
  · rw [if_neg (by simp), meetingIds_addEdges,
      meetingIds_mergeNode_not (d := NodeData.topic t) rfl]
  · rw [if_pos rfl]

/-- One action-item row does not change counts that neither the
ActionItem payload nor the assignee Person payload satisfies. -/
theorem countNodes_actionRow_not {it : AItem} {asg : Str} {g : Graph}
    {m : Nat} {p : NodeData → Bool}
    (hpA : p (.actionItem it.description it.status it.priority) = false)
    (hpP : p (.person asg none) = false) :
    (actionRow it asg g m).countNodes p = g.countNodes p := by
  simp only [actionRow]
  rw [countNodes_addEdges, countNodes_mergeNode_not hpP, countNodes_addEdges,
    countNodes_addNode, hpA]
  simp

/-- One action-item row creates exactly one ActionItem node. -/
theorem countNodes_actionRow_action (it : AItem) (asg : Str) (g : Graph)
    (m : Nat) :
    (actionRow it asg g m).countNodes NodeData.isAction =
      g.countNodes NodeData.isAction + 1 := by
  simp only [actionRow]
  rw [countNodes_addEdges, countNodes_mergeNode_not rfl, countNodes_addEdges,
    countNodes_addNode]
  simp [NodeData.isAction]

/-- With the assignee Person already present, one action-item row does
not change counts the ActionItem payload does not satisfy. -/
theorem countNodes_actionRow_found {it : AItem} {asg : Str} {g : Graph}
    {m : Nat} {p : NodeData → Bool}
    (hf : g.hasNode (NodeData.isPersonNamed asg) = true)
    (hpA : p (.actionItem it.description it.status it.priority) = false) :
    (actionRow it asg g m).countNodes p = g.countNodes p := by
  simp only [actionRow]
  rw [countNodes_addEdges]
  have hf2 : (((g.addNode
        (.actionItem it.description it.status it.priority)).1).addEdges
      [⟨m, relHasActionItem,
        (g.addNode (.actionItem it.description it.status it.priority)).2⟩]).hasNode
      (NodeData.isPersonNamed asg) = true := hasNode_addNode_mono _ hf
  rw [mergeNode_found hf2, countNodes_addEdges, countNodes_addNode, hpA]
  simp

/-- One action-item row never decreases a node count. -/
theorem countNodes_actionRow_le (it : AItem) (asg : Str) (g : Graph)
    (m : Nat) (p : NodeData → Bool) :
    g.countNodes p ≤ (actionRow it asg g m).countNodes p := by
  simp only [actionRow]
  rw [countNodes_addEdges]
  refine le_trans ?_ (countNodes_mergeNode_le _ _ _ p)
  rw [countNodes_addEdges, countNodes_addNode]
  omega

/-- One action-item row preserves node existence. -/
theorem hasNode_actionRow_mono {it : AItem} {asg : Str} {g : Graph}
    {m : Nat} {p : NodeData → Bool} (h : g.hasNode p = true) :
    (actionRow it asg g m).hasNode p = true := by
  simp only [actionRow]
  exact hasNode_mergeNode_mono (hasNode_addNode_mono _ h)

/-- One action-item row makes the assignee Person exist. -/
theorem hasNode_actionRow_person (it : AItem) (asg : Str) (g : Graph)
    (m : Nat) :
    (actionRow it asg g m).hasNode (NodeData.isPersonNamed asg) = true := by
  simp only [actionRow]
  exact hasNode_mergeNode_self (by simp [NodeData.isPersonNamed])

/-- One action-item row preserves the Meeting rows of any title. -/
theorem meetingIds_actionRow (it : AItem) (asg : Str) (g : Graph)
    (m : Nat) (title : Str) :
    (actionRow it asg g m).meetingIds title = g.meetingIds title := by
  simp only [actionRow]
  rw [meetingIds_addEdges,
    meetingIds_mergeNode_not (d := NodeData.person asg none) rfl,
    meetingIds_addEdges,
    meetingIds_addNode_not
      (d := NodeData.actionItem it.description it.status it.priority) rfl]

/-- The action-item row fold adds one ActionItem node per row. -/
theorem countNodes_foldl_actionRow_action (it : AItem) (asg : Str) :
    ∀ (l : List Nat) (g : Graph),
      ((l.foldl (actionRow it asg) g).countNodes NodeData.isAction) =
        g.countNodes NodeData.isAction + l.length := by
  intro l
  induction l with
  | nil => intro g; rfl
  | cons m t ih =>
    intro g
    rw [List.foldl_cons, ih, countNodes_actionRow_action]
    simp [Nat.add_assoc, Nat.add_comm 1]

/-- The action-item row fold does not change counts that neither
payload satisfies. -/
theorem countNodes_foldl_actionRow_not {it : AItem} {asg : Str}
    {p : NodeData → Bool}
    (hpA : p (.actionItem it.description it.status it.priority) = false)
    (hpP : p (.person asg none) = false) :
    ∀ (l : List Nat) (g : Graph),
      (l.foldl (actionRow it asg) g).countNodes p = g.countNodes p := by
  intro l
  induction l with
  | nil => intro g; rfl
  | cons m t ih =>
    intro g
    rw [List.foldl_cons, ih, countNodes_actionRow_not hpA hpP]

/-- With the assignee Person already present, the action-item row fold
does not change counts the ActionItem payload does not satisfy. -/
theorem countNodes_foldl_actionRow_found {it : AItem} {asg : Str}
    {p : NodeData → Bool}
    (hpA : p (.actionItem it.description it.status it.priority) = false) :
    ∀ (l : List Nat) (g : Graph),
      g.hasNode (NodeData.isPersonNamed asg) = true →
      (l.foldl (actionRow it asg) g).countNodes p = g.countNodes p := by
  intro l
  induction l with
  | nil => intro g _; rfl
  | cons m t ih =>
    intro g hf
    rw [List.foldl_cons, ih _ (hasNode_actionRow_mono hf),
      countNodes_actionRow_found hf hpA]

/-- The action-item row fold never decreases a node count. -/
theorem countNodes_foldl_actionRow_le (it : AItem) (asg : Str)
    (p : NodeData → Bool) :
    ∀ (l : List Nat) (g : Graph),
      g.countNodes p ≤ (l.foldl (actionRow it asg) g).countNodes p := by
  intro l
  induction l with
  | nil => intro g; exact le_refl _
  | cons m t ih =>
    intro g
    rw [List.foldl_cons]
    exact le_trans (countNodes_actionRow_le it asg g m p) (ih _)

/-- The action-item row fold preserves node existence. -/
theorem hasNode_foldl_actionRow_mono {it : AItem} {asg : Str}
    {p : NodeData → Bool} :
    ∀ (l : List Nat) (g : Graph), g.hasNode p = true →
      (l.foldl (actionRow it asg) g).hasNode p = true := by
  intro l g h
  exact foldl_graph_pres (P := fun g' => g'.hasNode p = true)
    (fun g' m h' => hasNode_actionRow_mono h') l g h

/-- On a non-empty row list, the action-item row fold makes the
assignee Person exist. -/
theorem hasNode_foldl_actionRow_person (it : AItem) (asg : Str)
    {l : List Nat} (hl : l ≠ []) (g : Graph) :
    ((l.foldl (actionRow it asg) g).hasNode
      (NodeData.isPersonNamed asg)) = true := by
  cases l with
  | nil => exact absurd rfl hl
  | cons m t =>
    rw [List.foldl_cons]
    exact hasNode_foldl_actionRow_mono t _ (hasNode_actionRow_person it asg g m)

/-- The action-item row fold preserves the Meeting rows of any title. -/
theorem meetingIds_foldl_actionRow (it : AItem) (asg : Str) (title : Str) :
    ∀ (l : List Nat) (g : Graph),
      (l.foldl (actionRow it asg) g).meetingIds title = g.meetingIds title := by
  intro l
  induction l with
  | nil => intro g; rfl
  | cons m t ih =>
    intro g
    rw [List.foldl_cons, ih, meetingIds_actionRow]

/-- The action-item query with a resolved assignee adds one ActionItem
node per Meeting row. -/
theorem countNodes_actionItemQ_action {g : Graph} {title : Str} {it : AItem}
    {asg : Str} (hasg : it.assignee = some asg) :
    (actionItemQ g title it).countNodes NodeData.isAction =
      g.countNodes NodeData.isAction + (g.meetingIds title).length := by
  simp only [actionItemQ, hasg]
  exact countNodes_foldl_actionRow_action it asg _ g

/-- The action-item query does not change counts that neither payload
satisfies. -/
theorem countNodes_actionItemQ_not {g : Graph} {title : Str} {it : AItem}
    {p : NodeData → Bool}
    (hpA : p (.actionItem it.description it.status it.priority) = false)
    (hpP : ∀ a, p (.person a none) = false) :
    (actionItemQ g title it).countNodes p = g.countNodes p := by
  cases hasg : it.assignee with
  | none => simp only [actionItemQ, hasg]
  | some asg =>
    simp only [actionItemQ, hasg]
    exact countNodes_foldl_actionRow_not hpA (hpP asg) _ g

/-- With the assignee Person already present, the action-item query does
not change counts the ActionItem payload does not satisfy. -/
theorem countNodes_actionItemQ_found {g : Graph} {title : Str} {it : AItem}
    {asg : Str} {p : NodeData → Bool} (hasg : it.assignee = some asg)
    (hpA : p (.actionItem it.description it.status it.priority) = false)
    (hf : g.hasNode (NodeData.isPersonNamed asg) = true) :
    (actionItemQ g title it).countNodes p = g.countNodes p := by
  simp only [actionItemQ, hasg]
  exact countNodes_foldl_actionRow_found hpA _ g hf

/-- The action-item query never decreases a node count. -/
theorem countNodes_actionItemQ_le (g : Graph) (title : Str) (it : AItem)
    (p : NodeData → Bool) :
    g.countNodes p ≤ (actionItemQ g title it).countNodes p := by
  cases hasg : it.assignee with
  | none => simp only [actionItemQ, hasg]; exact le_refl _
  | some asg =>
    simp only [actionItemQ, hasg]
    exact countNodes_foldl_actionRow_le it asg p _ g

/-- The action-item query preserves node existence. -/
theorem hasNode_actionItemQ_mono {g : Graph} {title : Str} {it : AItem}
    {p : NodeData → Bool} (h : g.hasNode p = true) :
    (actionItemQ g title it).hasNode p = true := by
  cases hasg : it.assignee with
  | none => simp only [actionItemQ, hasg]; exact h
  | some asg =>
    simp only [actionItemQ, hasg]
    exact hasNode_foldl_actionRow_mono _ g h

/-- With a resolved assignee and at least one Meeting row, the
action-item query makes the assignee Person exist. -/
theorem hasNode_actionItemQ_person {g : Graph} {title : Str} {it : AItem}
    {asg : Str} (hasg : it.assignee = some asg)
    (hms : (g.meetingIds title).isEmpty = false) :
    (actionItemQ g title it).hasNode (NodeData.isPersonNamed asg) = true := by
  simp only [actionItemQ, hasg]
  have hl : g.meetingIds title ≠ [] := by
    intro hnil; rw [hnil] at hms; simp at hms
  exact hasNode_foldl_actionRow_person it asg hl g

/-- The action-item query preserves the Meeting rows of any title. -/
theorem meetingIds_actionItemQ (g : Graph) (title : Str) (it : AItem)
    (title' : Str) :
    (actionItemQ g title it).meetingIds title' = g.meetingIds title' := by
  cases hasg : it.assignee with
  | none => simp only [actionItemQ, hasg]
  | some asg =>
    simp only [actionItemQ, hasg]
    exact meetingIds_foldl_actionRow it asg title' _ g

/-- One decision row does not change counts the Decision payload does
not satisfy. -/
theorem countNodes_decisionRow_not {content : Str} {g : Graph} {m : Nat}
    {p : NodeData → Bool} (hpd : p (.decision content) = false) :
    (decisionRow content g m).countNodes p = g.countNodes p := by
  simp only [decisionRow]
  rw [countNodes_addEdges, countNodes_addNode, hpd]
  simp

/-- One decision row creates exactly one Decision node. -/
theorem countNodes_decisionRow_decision (content : Str) (g : Graph) (m : Nat) :
    (decisionRow content g m).countNodes NodeData.isDecision =
      g.countNodes NodeData.isDecision + 1 := by
  simp only [decisionRow]
  rw [countNodes_addEdges, countNodes_addNode]
  simp [NodeData.isDecision]

/-- One decision row never decreases a node count. -/
theorem countNodes_decisionRow_le (content : Str) (g : Graph) (m : Nat)
    (p : NodeData → Bool) :
    g.countNodes p ≤ (decisionRow content g m).countNodes p := by
  simp only [decisionRow]
  rw [countNodes_addEdges, countNodes_addNode]
  omega

/-- One decision row preserves node existence. -/
theorem hasNode_decisionRow_mono {content : Str} {g : Graph} {m : Nat}
    {p : NodeData → Bool} (h : g.hasNode p = true) :
    (decisionRow content g m).hasNode p = true := by
  simp only [decisionRow]
  exact hasNode_addNode_mono _ h

/-- One decision row preserves the Meeting rows of any title. -/
theorem meetingIds_decisionRow (content : Str) (g : Graph) (m : Nat)
    (title : Str) :
    (decisionRow content g m).meetingIds title = g.meetingIds title := by
  simp only [decisionRow]
  rw [meetingIds_addEdges,
    meetingIds_addNode_not (d := NodeData.decision content) rfl]

/-- The decision query adds one Decision node per Meeting row. -/
theorem countNodes_decisionQ_decision (g : Graph) (title content : Str) :
    (decisionQ g title content).countNodes NodeData.isDecision =
      g.countNodes NodeData.isDecision + (g.meetingIds title).length := by
  simp only [decisionQ]
  generalize g.meetingIds title = l
  induction l generalizing g with
  | nil => rfl
  | cons m t ih =>
    rw [List.foldl_cons, ih, countNodes_decisionRow_decision]
    simp [Nat.add_assoc, Nat.add_comm 1]

/-- The decision query does not change counts the Decision payload does
not satisfy. -/
theorem countNodes_decisionQ_not {g : Graph} {title content : Str}
    {p : NodeData → Bool} (hpd : p (.decision content) = false) :
    (decisionQ g title content).countNodes p = g.countNodes p := by
  simp only [decisionQ]
  generalize g.meetingIds title = l
  induction l generalizing g with
  | nil => rfl
  | cons m t ih =>
    rw [List.foldl_cons, ih, countNodes_decisionRow_not hpd]

/-- The decision query never decreases a node count. -/
theorem countNodes_decisionQ_le (g : Graph) (title content : Str)
    (p : NodeData → Bool) :
    g.countNodes p ≤ (decisionQ g title content).countNodes p := by
  simp only [decisionQ]
  generalize g.meetingIds title = l
  induction l generalizing g with
  | nil => exact le_refl _
  | cons m t ih =>
    rw [List.foldl_cons]
    exact le_trans (countNodes_decisionRow_le content g m p) (ih _)

/-- The decision query preserves node existence. -/
theorem hasNode_decisionQ_mono {g : Graph} {title content : Str}
    {p : NodeData → Bool} (h : g.hasNode p = true) :
    (decisionQ g title content).hasNode p = true := by
  simp only [decisionQ]
  exact foldl_graph_pres (P := fun g' => g'.hasNode p = true)
    (fun g' m h' => hasNode_decisionRow_mono h') _ g h

/-- The decision query preserves the Meeting rows of any title. -/
theorem meetingIds_decisionQ (g : Graph) (title content : Str)
    (title' : Str) :
    (decisionQ g title content).meetingIds title' = g.meetingIds title' := by
  simp only [decisionQ]
  generalize g.meetingIds title = l
  induction l generalizing g with
  | nil => rfl
  | cons m t ih =>
    rw [List.foldl_cons, ih, meetingIds_decisionRow]

/-- The attendee query does not change counts the merged Person payload
does not satisfy (for e-mail-stable predicates). -/
theorem countNodes_attendeeQ_not {g : Graph} {title : Str} {att : Attendee}
    {p : NodeData → Bool} (hpP : p (.person att.name none) = false)
    (hst : emailStable p) :
    (attendeeQ g title att).countNodes p = g.countNodes p := by
  simp only [attendeeQ]
  cases hms : (g.meetingIds title).isEmpty
  · rw [if_neg (by simp)]
    cases hem : att.email with
    | none => exact countNodes_mergeNode_not hpP
    | some e =>
      rw [countNodes_addEdges, countNodes_setEmail _ _ _ hst,
        countNodes_mergeNode_not hpP]
  · rw [if_pos rfl]

/-- With the attendee Person already present, the attendee query does
not change counts of e-mail-stable predicates. -/
theorem countNodes_attendeeQ_found {g : Graph} {title : Str} {att : Attendee}
    {p : NodeData → Bool}
    (hf : g.hasNode (NodeData.isPersonNamed att.name) = true)
    (hst : emailStable p) :
    (attendeeQ g title att).countNodes p = g.countNodes p := by
  simp only [attendeeQ]
  cases hms : (g.meetingIds title).isEmpty
  · rw [if_neg (by simp)]
    cases hem : att.email with
    | none => rw [mergeNode_found hf]
    | some e =>
      rw [countNodes_addEdges, countNodes_setEmail _ _ _ hst,
        mergeNode_found hf]
  · rw [if_pos rfl]

/-- The attendee query never decreases counts of e-mail-stable
predicates. -/
theorem countNodes_attendeeQ_le {p : NodeData → Bool} (g : Graph)
    (title : Str) (att : Attendee) (hst : emailStable p) :
    g.countNodes p ≤ (attendeeQ g title att).countNodes p := by
  simp only [attendeeQ]
  cases hms : (g.meetingIds title).isEmpty
  · rw [if_neg (by simp)]
    cases hem : att.email with
    | none => exact countNodes_mergeNode_le _ _ _ p
    | some e =>
      rw [countNodes_addEdges, countNodes_setEmail _ _ _ hst]
      exact countNodes_mergeNode_le _ _ _ p
  · rw [if_pos rfl]

/-- The attendee query preserves existence for e-mail-stable
predicates. -/
theorem hasNode_attendeeQ_mono {g : Graph} {title : Str} {att : Attendee}
    {p : NodeData → Bool} (hst : emailStable p) (h : g.hasNode p = true) :
    (attendeeQ g title att).hasNode p = true := by
  simp only [attendeeQ]
  cases hms : (g.meetingIds title).isEmpty
  · rw [if_neg (by simp)]
    cases hem : att.email with
    | none => exact hasNode_mergeNode_mono h
    | some e =>
      rw [hasNode_addEdges, hasNode_setEmail _ _ _ hst]
      exact hasNode_mergeNode_mono h
  · rw [if_pos rfl]; exact h

/-- With at least one Meeting row, the attendee query makes the
attendee Person exist. -/
theorem hasNode_attendeeQ_person {g : Graph} {title : Str} {att : Attendee}
    (hms : (g.meetingIds title).isEmpty = false) :
    (attendeeQ g title att).hasNode (NodeData.isPersonNamed att.name) = true := by
  simp only [attendeeQ]
  rw [hms, if_neg (by simp)]
  cases hem : att.email with
  | none => exact hasNode_mergeNode_self (by simp [NodeData.isPersonNamed])
  | some e =>
    rw [hasNode_addEdges,
      hasNode_setEmail _ _ _ (emailStable_isPersonNamed att.name)]
    exact hasNode_mergeNode_self (by simp [NodeData.isPersonNamed])

/-- The attendee query preserves the Meeting rows of any title. -/
theorem meetingIds_attendeeQ (g : Graph) (title : Str) (att : Attendee)
    (title' : Str) :
    (attendeeQ g title att).meetingIds title' = g.meetingIds title' := by
  simp only [attendeeQ]
  cases hms : (g.meetingIds title).isEmpty
  · rw [if_neg (by simp)]
    cases hem : att.email with
    | none => exact meetingIds_mergeNode_not (d := NodeData.person att.name none) rfl
    | some e =>
      rw [meetingIds_addEdges, meetingIds_setEmail,
        meetingIds_mergeNode_not (d := NodeData.person att.name none) rfl]
  · rw [if_pos rfl]

/-! ## Store lemmas: per-phase folds -/

/-- Equal node lists give equal existence answers. -/
theorem hasNode_congr {g g' : Graph} (h : g'.nodes = g.nodes)
    (p : NodeData → Bool) : g'.hasNode p = g.hasNode p := by
  rw [Graph.hasNode, Graph.hasNode, h]

/-- A present Meeting title means a non-empty Meeting row list. -/
theorem meetingIds_nonempty_of_hasNode {g : Graph} {title : Str}
    (h : g.hasNode (NodeData.isMeetingTitled title) = true) :
    (g.meetingIds title).isEmpty = false := by
  cases hie : (g.meetingIds title).isEmpty
  · rfl
  · rw [hasNode_eq_meetingIds, hie] at h
    simp at h

/-- A non-empty Meeting row list has positive length. -/
theorem meetingIds_length_pos {g : Graph} {title : Str}
    (h : g.hasNode (NodeData.isMeetingTitled title) = true) :
    0 < (g.meetingIds title).length := by
  have hie := meetingIds_nonempty_of_hasNode h
  cases hl : g.meetingIds title with
  | nil => rw [hl] at hie; simp at hie
  | cons m t => simp

/-- One guarded topic step preserves node existence. -/
theorem hasNode_topicStep_mono {title t : Str} {g : Graph}
    {p : NodeData → Bool} (h : g.hasNode p = true) :
    (topicStep title g t).hasNode p = true := by
  simp only [topicStep]
  by_cases ht : truthyStr t = true
  · rw [if_pos ht]; exact hasNode_linkTopicQ_mono h
  · rw [if_neg ht]; exact h

/-- The topic phase does not change counts the topic payloads do not
satisfy. -/
theorem countNodes_topicsPhase_not {title : Str} {p : NodeData → Bool}
    (hp : ∀ t, p (.topic t) = false) :
    ∀ (ts : List Str) (g : Graph),
      (ts.foldl (topicStep title) g).countNodes p = g.countNodes p := by
  intro ts
  induction ts with
  | nil => intro g; rfl
  | cons t ts ih =>
    intro g
    rw [List.foldl_cons, ih]
    simp only [topicStep]
    by_cases ht : truthyStr t = true
    · rw [if_pos ht, countNodes_linkTopicQ_not (hp t)]
    · rw [if_neg ht]

/-- With every truthy topic already present, the topic phase adds no
node at all. -/
theorem nodes_topicsPhase_found {title : Str} :
    ∀ (ts : List Str) (g : Graph),
      (∀ t ∈ ts, truthyStr t = true →
        g.hasNode (NodeData.isTopicNamed t) = true) →
      (ts.foldl (topicStep title) g).nodes = g.nodes := by
  intro ts
  induction ts with
  | nil => intro g _; rfl
  | cons t ts ih =>
    intro g hall
    rw [List.foldl_cons]
    have hstep : (topicStep title g t).nodes = g.nodes := by
      simp only [topicStep]
      by_cases ht : truthyStr t = true
      · rw [if_pos ht]
        exact nodes_linkTopicQ_found (hall t (by simp) ht)
      · rw [if_neg ht]
    have hrec := ih (topicStep title g t) (fun t' ht' htr => by
      rw [hasNode_congr hstep]
      exact hall t' (by simp [ht']) htr)
    rw [hrec, hstep]

/-- The topic phase never decreases a node count. -/
theorem countNodes_topicsPhase_le (title : Str) (p : NodeData → Bool) :
    ∀ (ts : List Str) (g : Graph),
      g.countNodes p ≤ (ts.foldl (topicStep title) g).countNodes p := by
  intro ts
  induction ts with
  | nil => intro g; exact le_refl _
  | cons t ts ih =>
    intro g
    rw [List.foldl_cons]
    refine le_trans ?_ (ih _)
    simp only [topicStep]
    by_cases ht : truthyStr t = true
    · rw [if_pos ht]; exact countNodes_linkTopicQ_le g title t p
    · rw [if_neg ht]

/-- The topic phase preserves node existence. -/
theorem hasNode_topicsPhase_mono {title : Str} {p : NodeData → Bool} :
    ∀ (ts : List Str) (g : Graph), g.hasNode p = true →
      (ts.foldl (topicStep title) g).hasNode p = true := by
  intro ts g h
  exact foldl_graph_pres (P := fun g' => g'.hasNode p = true)
    (fun g' t h' => hasNode_topicStep_mono h') ts g h

/-- The topic phase preserves the Meeting rows of any title. -/
theorem meetingIds_topicsPhase (title title' : Str) :
    ∀ (ts : List Str) (g : Graph),
      (ts.foldl (topicStep title) g).meetingIds title' =
        g.meetingIds title' := by
  intro ts
  induction ts with
  | nil => intro g; rfl
  | cons t ts ih =>
    intro g
    rw [List.foldl_cons, ih]
    simp only [topicStep]
    by_cases ht : truthyStr t = true
    · rw [if_pos ht, meetingIds_linkTopicQ]
    · rw [if_neg ht]

/-- With a Meeting row present, the topic phase makes every truthy topic
of the list exist. -/
theorem hasNode_topicsPhase_topic {title : Str} :
    ∀ (ts : List Str) (g : Graph),
      g.hasNode (NodeData.isMeetingTitled title) = true →
      ∀ t ∈ ts, truthyStr t = true →
      (ts.foldl (topicStep title) g).hasNode (NodeData.isTopicNamed t) = true := by
  intro ts
  induction ts with
  | nil => intro g _ t ht; simp at ht
  | cons a ts ih =>
    intro g hm t ht htr
    rw [List.foldl_cons]
    have hm' : (topicStep title g a).hasNode
        (NodeData.isMeetingTitled title) = true := hasNode_topicStep_mono hm
    rcases List.mem_cons.mp ht with rfl | ht'
    · have hstep : (topicStep title g t).hasNode
          (NodeData.isTopicNamed t) = true := by
        simp only [topicStep]
        rw [if_pos htr]
        exact hasNode_linkTopicQ_topic (meetingIds_nonempty_of_hasNode hm)
      exact hasNode_topicsPhase_mono ts _ hstep
    · exact ih (topicStep title g a) hm' t ht' htr

/-- One guarded action-item step preserves node existence. -/
theorem hasNode_actionItemStep_mono {title : Str} {it : AItem} {g : Graph}
    {p : NodeData → Bool} (h : g.hasNode p = true) :
    (actionItemStep title g it).hasNode p = true := by
  simp only [actionItemStep]
  by_cases hg : (truthyStr it.description && truthyOptStr it.assignee) = true
  · rw [if_pos hg]; exact hasNode_actionItemQ_mono h
  · rw [if_neg hg]; exact h

/-- One guarded action-item step never decreases a node count. -/
theorem countNodes_actionItemStep_le (title : Str) (g : Graph) (it : AItem)
    (p : NodeData → Bool) :
    g.countNodes p ≤ (actionItemStep title g it).countNodes p := by
  simp only [actionItemStep]
  by_cases hg : (truthyStr it.description && truthyOptStr it.assignee) = true
  · rw [if_pos hg]; exact countNodes_actionItemQ_le g title it p
  · rw [if_neg hg]

/-- One guarded action-item step preserves the Meeting rows. -/
theorem meetingIds_actionItemStep (title : Str) (g : Graph) (it : AItem)
    (title' : Str) :
    (actionItemStep title g it).meetingIds title' = g.meetingIds title' := by
  simp only [actionItemStep]
  by_cases hg : (truthyStr it.description && truthyOptStr it.assignee) = true
  · rw [if_pos hg, meetingIds_actionItemQ]
  · rw [if_neg hg]

/-- The action phase does not change counts that neither the ActionItem
payloads nor any Person payload satisfies. -/
theorem countNodes_actionsPhase_not {title : Str} {p : NodeData → Bool}
    (hpA : ∀ d s pr, p (.actionItem d s pr) = false)
    (hpP : ∀ a, p (.person a none) = false) :
    ∀ (l : List AItem) (g : Graph),
      (l.foldl (actionItemStep title) g).countNodes p = g.countNodes p := by
  intro l
  induction l with
  | nil => intro g; rfl
  | cons it l ih =>
    intro g
    rw [List.foldl_cons, ih]
    simp only [actionItemStep]
    by_cases hg : (truthyStr it.description && truthyOptStr it.assignee) = true
    · rw [if_pos hg, countNodes_actionItemQ_not (hpA _ _ _) hpP]
    · rw [if_neg hg]

/-- With every guarded item's assignee Person already present, the
action phase does not change counts the ActionItem payloads do not
satisfy. -/
theorem countNodes_actionsPhase_found {title : Str} {p : NodeData → Bool}
    (hpA : ∀ d s pr, p (.actionItem d s pr) = false) :
    ∀ (l : List AItem) (g : Graph),
      (∀ it ∈ l, (truthyStr it.description && truthyOptStr it.assignee) = true →
        ∀ asg, it.assignee = some asg →
        g.hasNode (NodeData.isPersonNamed asg) = true) →
      (l.foldl (actionItemStep title) g).countNodes p = g.countNodes p := by
  intro l
  induction l with
  | nil => intro g _; rfl
  | cons it l ih =>
    intro g hall
    rw [List.foldl_cons]
    have hstep : (actionItemStep title g it).countNodes p = g.countNodes p := by
      simp only [actionItemStep]
      by_cases hg : (truthyStr it.description && truthyOptStr it.assignee) = true
      · rw [if_pos hg]
        obtain ⟨asg, hasg, -⟩ :=
          truthyOptStr_some (Bool.and_elim_right hg)
        exact countNodes_actionItemQ_found hasg (hpA _ _ _)
          (hall it (by simp) hg asg hasg)
      · rw [if_neg hg]
    have hrec := ih (actionItemStep title g it) (fun it' hit' hg' asg hasg =>
      hasNode_actionItemStep_mono (hall it' (by simp [hit']) hg' asg hasg))
    rw [hrec, hstep]

/-- The action phase never decreases a node count. -/
theorem countNodes_actionsPhase_le (title : Str) (p : NodeData → Bool) :
    ∀ (l : List AItem) (g : Graph),
      g.countNodes p ≤ (l.foldl (actionItemStep title) g).countNodes p := by
  intro l
  induction l with
  | nil => intro g; exact le_refl _
  | cons it l ih =>
    intro g
    rw [List.foldl_cons]
    exact le_trans (countNodes_actionItemStep_le title g it p) (ih _)

/-- The action phase preserves node existence. -/
theorem hasNode_actionsPhase_mono {title : Str} {p : NodeData → Bool} :
    ∀ (l : List AItem) (g : Graph), g.hasNode p = true →
      (l.foldl (actionItemStep title) g).hasNode p = true := by
  intro l g h
  exact foldl_graph_pres (P := fun g' => g'.hasNode p = true)
    (fun g' it h' => hasNode_actionItemStep_mono h') l g h

/-- The action phase preserves the Meeting rows of any title. -/
theorem meetingIds_actionsPhase (title title' : Str) :
    ∀ (l : List AItem) (g : Graph),
      (l.foldl (actionItemStep title) g).meetingIds title' =
        g.meetingIds title' := by
  intro l
  induction l with
  | nil => intro g; rfl
  | cons it l ih =>
    intro g
    rw [List.foldl_cons, ih, meetingIds_actionItemStep]

/-- With a Meeting row present, the action phase makes every guarded
item's assignee Person exist. -/
theorem hasNode_actionsPhase_person {title : Str} :
    ∀ (l : List AItem) (g : Graph),
      g.hasNode (NodeData.isMeetingTitled title) = true →
      ∀ it ∈ l, (truthyStr it.description && truthyOptStr it.assignee) = true →
      ∀ asg, it.assignee = some asg →
      (l.foldl (actionItemStep title) g).hasNode
        (NodeData.isPersonNamed asg) = true := by
  intro l
  induction l with
  | nil => intro g _ it hit; simp at hit
  | cons a l ih =>
    intro g hm it hit hg asg hasg
    rw [List.foldl_cons]
    have hm' : (actionItemStep title g a).hasNode
        (NodeData.isMeetingTitled title) = true :=
      hasNode_actionItemStep_mono hm
    rcases List.mem_cons.mp hit with rfl | hit'
    · have hstep : (actionItemStep title g it).hasNode
          (NodeData.isPersonNamed asg) = true := by
        simp only [actionItemStep]
        rw [if_pos hg]
        exact hasNode_actionItemQ_person hasg
          (meetingIds_nonempty_of_hasNode hm)
      exact hasNode_actionsPhase_mono l _ hstep
    · exact ih (actionItemStep title g a) hm' it hit' hg asg hasg

/-- With a Meeting row present and at least one guarded item, the
action phase strictly increases the ActionItem count. -/
theorem countNodes_actionsPhase_lt {title : Str} :
    ∀ (l : List AItem) (g : Graph),
      g.hasNode (NodeData.isMeetingTitled title) = true →
      (∃ it ∈ l, (truthyStr it.description && truthyOptStr it.assignee) = true) →
      g.countNodes NodeData.isAction <
        (l.foldl (actionItemStep title) g).countNodes NodeData.isAction := by
  intro l
  induction l with
  | nil => intro g _ hex; simp at hex
  | cons a l ih =>
    intro g hm hex
    rw [List.foldl_cons]
    obtain ⟨it, hit, hg⟩ := hex
    rcases List.mem_cons.mp hit with rfl | hit'
    · have hstep : g.countNodes NodeData.isAction <
          (actionItemStep title g it).countNodes NodeData.isAction := by
        simp only [actionItemStep]
        rw [if_pos hg]
        obtain ⟨asg, hasg, -⟩ :=
          truthyOptStr_some (Bool.and_elim_right hg)
        rw [countNodes_actionItemQ_action hasg]
        have := meetingIds_length_pos hm
        omega
      exact lt_of_lt_of_le hstep (countNodes_actionsPhase_le title _ l _)
    · refine lt_of_le_of_lt (countNodes_actionItemStep_le title g a _) ?_
      exact ih _ (hasNode_actionItemStep_mono hm) ⟨it, hit', hg⟩

/-- One guarded decision step preserves node existence. -/
theorem hasNode_decisionStep_mono {title d : Str} {g : Graph}
    {p : NodeData → Bool} (h : g.hasNode p = true) :
    (decisionStep title g d).hasNode p = true := by
  simp only [decisionStep]
  by_cases hd : truthyStr d = true
  · rw [if_pos hd]; exact hasNode_decisionQ_mono h
  · rw [if_neg hd]; exact h

/-- One guarded decision step never decreases a node count. -/
theorem countNodes_decisionStep_le (title : Str) (g : Graph) (d : Str)
    (p : NodeData → Bool) :
    g.countNodes p ≤ (decisionStep title g d).countNodes p := by
  simp only [decisionStep]
  by_cases hd : truthyStr d = true
  · rw [if_pos hd]; exact countNodes_decisionQ_le g title d p
  · rw [if_neg hd]

/-- The decision phase does not change counts the Decision payloads do
not satisfy. -/
theorem countNodes_decisionsPhase_not {title : Str} {p : NodeData → Bool}
    (hp : ∀ c, p (.decision c) = false) :
    ∀ (ds : List Str) (g : Graph),
      (ds.foldl (decisionStep title) g).countNodes p = g.countNodes p := by
  intro ds
  induction ds with
  | nil => intro g; rfl
  | cons d ds ih =>
    intro g
    rw [List.foldl_cons, ih]
    simp only [decisionStep]
    by_cases hd : truthyStr d = true
    · rw [if_pos hd, countNodes_decisionQ_not (hp d)]
    · rw [if_neg hd]

/-- The decision phase never decreases a node count. -/
theorem countNodes_decisionsPhase_le (title : Str) (p : NodeData → Bool) :
    ∀ (ds : List Str) (g : Graph),
      g.countNodes p ≤ (ds.foldl (decisionStep title) g).countNodes p := by
  intro ds
  induction ds with
  | nil => intro g; exact le_refl _
  | cons d ds ih =>
    intro g
    rw [List.foldl_cons]
    exact le_trans (countNodes_decisionStep_le title g d p) (ih _)

/-- The decision phase preserves node existence. -/
theorem hasNode_decisionsPhase_mono {title : Str} {p : NodeData → Bool} :
    ∀ (ds : List Str) (g : Graph), g.hasNode p = true →
      (ds.foldl (decisionStep title) g).hasNode p = true := by
  intro ds g h
  exact foldl_graph_pres (P := fun g' => g'.hasNode p = true)
    (fun g' d h' => hasNode_decisionStep_mono h') ds g h

/-- The decision phase preserves the Meeting rows of any title. -/
theorem meetingIds_decisionsPhase (title title' : Str) :
    ∀ (ds : List Str) (g : Graph),
      (ds.foldl (decisionStep title) g).meetingIds title' =
        g.meetingIds title' := by
  intro ds
  induction ds with
  | nil => intro g; rfl
  | cons d ds ih =>
    intro g
    rw [List.foldl_cons, ih]
    simp only [decisionStep]
    by_cases hd : truthyStr d = true
    · rw [if_pos hd, meetingIds_decisionQ]
    · rw [if_neg hd]

/-- With a Meeting row present and at least one non-empty decision, the
decision phase strictly increases the Decision count. -/
theorem countNodes_decisionsPhase_lt {title : Str} :
    ∀ (ds : List Str) (g : Graph),
      g.hasNode (NodeData.isMeetingTitled title) = true →
      (∃ d ∈ ds, truthyStr d = true) →
      g.countNodes NodeData.isDecision <
        (ds.foldl (decisionStep title) g).countNodes NodeData.isDecision := by
  intro ds
  induction ds with
  | nil => intro g _ hex; simp at hex
  | cons a ds ih =>
    intro g hm hex
    rw [List.foldl_cons]
    obtain ⟨d, hd, hdr⟩ := hex
    rcases List.mem_cons.mp hd with rfl | hd'
    · have hstep : g.countNodes NodeData.isDecision <
          (decisionStep title g d).countNodes NodeData.isDecision := by
        simp only [decisionStep]
        rw [if_pos hdr, countNodes_decisionQ_decision]
        have := meetingIds_length_pos hm
        omega
      exact lt_of_lt_of_le hstep (countNodes_decisionsPhase_le title _ ds _)
    · refine lt_of_le_of_lt (countNodes_decisionStep_le title g a _) ?_
      exact ih _ (hasNode_decisionStep_mono hm) ⟨d, hd', hdr⟩

/-- One guarded attendee step preserves existence for e-mail-stable
predicates. -/
theorem hasNode_attendeeStep_mono {title : Str} {a : Attendee} {g : Graph}
    {p : NodeData → Bool} (hst : emailStable p) (h : g.hasNode p = true) :
    (attendeeStep title g a).hasNode p = true := by
  simp only [attendeeStep]
  by_cases ha : truthyStr a.name = true
  · rw [if_pos ha]; exact hasNode_attendeeQ_mono hst h
  · rw [if_neg ha]; exact h

/-- One guarded attendee step never decreases counts of e-mail-stable
predicates. -/
theorem countNodes_attendeeStep_le {p : NodeData → Bool} (title : Str)
    (g : Graph) (a : Attendee) (hst : emailStable p) :
    g.countNodes p ≤ (attendeeStep title g a).countNodes p := by
  simp only [attendeeStep]
  by_cases ha : truthyStr a.name = true
  · rw [if_pos ha]; exact countNodes_attendeeQ_le g title a hst
  · rw [if_neg ha]

/-- The attendee phase does not change counts that no Person payload
satisfies (for e-mail-stable predicates). -/
theorem countNodes_attendeesPhase_not {title : Str} {p : NodeData → Bool}
    (hpP : ∀ nm, p (.person nm none) = false) (hst : emailStable p) :
    ∀ (l : List Attendee) (g : Graph),
      (l.foldl (attendeeStep title) g).countNodes p = g.countNodes p := by
  intro l
  induction l with
  | nil => intro g; rfl
  | cons a l ih =>
    intro g
    rw [List.foldl_cons, ih]
    simp only [attendeeStep]
    by_cases ha : truthyStr a.name = true
    · rw [if_pos ha, countNodes_attendeeQ_not (hpP a.name) hst]
    · rw [if_neg ha]

/-- With every truthy attendee's Person already present, the attendee
phase does not change counts of e-mail-stable predicates. -/
theorem countNodes_attendeesPhase_found {title : Str} {p : NodeData → Bool}
    (hst : emailStable p) :
    ∀ (l : List Attendee) (g : Graph),
      (∀ a ∈ l, truthyStr a.name = true →
        g.hasNode (NodeData.isPersonNamed a.name) = true) →
      (l.foldl (attendeeStep title) g).countNodes p = g.countNodes p := by
  intro l
  induction l with
  | nil => intro g _; rfl
  | cons a l ih =>
    intro g hall
    rw [List.foldl_cons]
    have hstep : (attendeeStep title g a).countNodes p = g.countNodes p := by
      simp only [attendeeStep]
      by_cases ha : truthyStr a.name = true
      · rw [if_pos ha, countNodes_attendeeQ_found (hall a (by simp) ha) hst]
      · rw [if_neg ha]
    have hrec := ih (attendeeStep title g a) (fun a' ha' har =>
      hasNode_attendeeStep_mono (emailStable_isPersonNamed a'.name)
        (hall a' (by simp [ha']) har))
    rw [hrec, hstep]

/-- The attendee phase never decreases counts of e-mail-stable
predicates. -/
theorem countNodes_attendeesPhase_le {p : NodeData → Bool} (title : Str)
    (hst : emailStable p) :
    ∀ (l : List Attendee) (g : Graph),
      g.countNodes p ≤ (l.foldl (attendeeStep title) g).countNodes p := by
  intro l
  induction l with
  | nil => intro g; exact le_refl _
  | cons a l ih =>
    intro g
    rw [List.foldl_cons]
    exact le_trans (countNodes_attendeeStep_le title g a hst) (ih _)

/-- The attendee phase preserves existence for e-mail-stable
predicates. -/
theorem hasNode_attendeesPhase_mono {title : Str} {p : NodeData → Bool}
    (hst : emailStable p) :
    ∀ (l : List Attendee) (g : Graph), g.hasNode p = true →
      (l.foldl (attendeeStep title) g).hasNode p = true := by
  intro l g h
  exact foldl_graph_pres (P := fun g' => g'.hasNode p = true)
    (fun g' a h' => hasNode_attendeeStep_mono hst h') l g h

/-- The attendee phase preserves the Meeting rows of any title. -/
theorem meetingIds_attendeesPhase (title title' : Str) :
    ∀ (l : List Attendee) (g : Graph),
      (l.foldl (attendeeStep title) g).meetingIds title' =
        g.meetingIds title' := by
  intro l
  induction l with
  | nil => intro g; rfl
  | cons a l ih =>
    intro g
    rw [List.foldl_cons, ih]
    simp only [attendeeStep]
    by_cases ha : truthyStr a.name = true
    · rw [if_pos ha, meetingIds_attendeeQ]
    · rw [if_neg ha]

/-- With a Meeting row present, the attendee phase makes every truthy
attendee's Person exist. -/
theorem hasNode_attendeesPhase_person {title : Str} :
    ∀ (l : List Attendee) (g : Graph),
      g.hasNode (NodeData.isMeetingTitled title) = true →
      ∀ a ∈ l, truthyStr a.name = true →
      (l.foldl (attendeeStep title) g).hasNode
        (NodeData.isPersonNamed a.name) = true := by
  intro l
  induction l with
  | nil => intro g _ a ha; simp at ha
  | cons b l ih =>
    intro g hm a ha har
    rw [List.foldl_cons]
    have hm' : (attendeeStep title g b).hasNode
        (NodeData.isMeetingTitled title) = true :=
      hasNode_attendeeStep_mono (emailStable_isMeetingTitled title) hm
    rcases List.mem_cons.mp ha with rfl | ha'
    · have hstep : (attendeeStep title g a).hasNode
          (NodeData.isPersonNamed a.name) = true := by
        simp only [attendeeStep]
        rw [if_pos har]
        exact hasNode_attendeeQ_person (meetingIds_nonempty_of_hasNode hm)
      exact hasNode_attendeesPhase_mono
        (emailStable_isPersonNamed a.name) l _ hstep
    · exact ih (attendeeStep title g b) hm' a ha' har

/-! ## Store lemmas: whole-call -/

/-- Equal node lists give equal counts. -/
theorem countNodes_congr {g g' : Graph} (h : g'.nodes = g.nodes)
    (p : NodeData → Bool) : g'.countNodes p = g.countNodes p := by
  rw [Graph.countNodes, Graph.countNodes, h]

/-- Node count after the meeting-creation query. -/
theorem countNodes_createMeetingQ (g : Graph) (title mtype date : Str)
    (p : NodeData → Bool) :
    (createMeetingQ g title mtype date).countNodes p =
      g.countNodes p + (if p (.meeting title mtype date) then 1 else 0) := by
  simp only [createMeetingQ]
  exact countNodes_addNode g _ p

/-- The meeting-creation query preserves node existence. -/
theorem hasNode_createMeetingQ_mono {g : Graph} {title mtype date : Str}
    {p : NodeData → Bool} (h : g.hasNode p = true) :
    (createMeetingQ g title mtype date).hasNode p = true :=
  hasNode_addNode_mono _ h

/-- The meeting-creation query creates a Meeting with the given title. -/
theorem hasNode_createMeetingQ_self (g : Graph) (title mtype date : Str) :
    (createMeetingQ g title mtype date).hasNode
      (NodeData.isMeetingTitled title) = true :=
  hasNode_addNode_self (by simp [NodeData.isMeetingTitled])

/-- One ingestion call creates exactly one new Meeting node. -/
theorem countNodes_store_meeting (g : Graph) (title mtype date : Str)
    (tps : List Str) (its : List AItem) (dcs : List Str)
    (ats : List Attendee) :
    (storeInNeo4j g title mtype date tps its dcs ats).countNodes
        NodeData.isMeeting = g.countNodes NodeData.isMeeting + 1 := by
  simp only [storeInNeo4j]
  rw [countNodes_attendeesPhase_not (fun nm => rfl) emailStable_isMeeting,
    countNodes_decisionsPhase_not (fun c => rfl),
    countNodes_actionsPhase_not (fun d s pr => rfl) (fun a => rfl),
    countNodes_topicsPhase_not (fun t => rfl),
    countNodes_createMeetingQ]
  simp [NodeData.isMeeting]

/-- After one ingestion call, a Meeting with the call's title exists. -/
theorem hasNode_store_title (g : Graph) (title mtype date : Str)
    (tps : List Str) (its : List AItem) (dcs : List Str)
    (ats : List Attendee) :
    (storeInNeo4j g title mtype date tps its dcs ats).hasNode
      (NodeData.isMeetingTitled title) = true := by
  simp only [storeInNeo4j]
  exact hasNode_attendeesPhase_mono (emailStable_isMeetingTitled title) _ _
    (hasNode_decisionsPhase_mono _ _
      (hasNode_actionsPhase_mono _ _
        (hasNode_topicsPhase_mono _ _
          (hasNode_createMeetingQ_self g title mtype date))))

/-- One ingestion call preserves existence for e-mail-stable
predicates. -/
theorem hasNode_store_mono {p : NodeData → Bool} (hst : emailStable p)
    {g : Graph} (title mtype date : Str) (tps : List Str) (its : List AItem)
    (dcs : List Str) (ats : List Attendee) (h : g.hasNode p = true) :
    (storeInNeo4j g title mtype date tps its dcs ats).hasNode p = true := by
  simp only [storeInNeo4j]
  exact hasNode_attendeesPhase_mono hst _ _
    (hasNode_decisionsPhase_mono _ _
      (hasNode_actionsPhase_mono _ _
        (hasNode_topicsPhase_mono _ _
          (hasNode_createMeetingQ_mono h))))

/-- After one ingestion call, every truthy topic of the call exists. -/
theorem hasNode_store_topic {g : Graph} {title mtype date : Str}
    {tps : List Str} {its : List AItem} {dcs : List Str} {ats : List Attendee}
    {t : Str} (ht : t ∈ tps) (htr : truthyStr t = true) :
    (storeInNeo4j g title mtype date tps its dcs ats).hasNode
      (NodeData.isTopicNamed t) = true := by
  simp only [storeInNeo4j]
  exact hasNode_attendeesPhase_mono (emailStable_isTopicNamed t) _ _
    (hasNode_decisionsPhase_mono _ _
      (hasNode_actionsPhase_mono _ _
        (hasNode_topicsPhase_topic tps _
          (hasNode_createMeetingQ_self g title mtype date) t ht htr)))

/-- After one ingestion call, every guarded item's assignee Person
exists. -/
theorem hasNode_store_assignee {g : Graph} {title mtype date : Str}
    {tps : List Str} {its : List AItem} {dcs : List Str} {ats : List Attendee}
    {it : AItem} {asg : Str} (hit : it ∈ its)
    (hg : (truthyStr it.description && truthyOptStr it.assignee) = true)
    (hasg : it.assignee = some asg) :
    (storeInNeo4j g title mtype date tps its dcs ats).hasNode
      (NodeData.isPersonNamed asg) = true := by
  simp only [storeInNeo4j]
  exact hasNode_attendeesPhase_mono (emailStable_isPersonNamed asg) _ _
    (hasNode_decisionsPhase_mono _ _
      (hasNode_actionsPhase_person its _
        (hasNode_topicsPhase_mono _ _
          (hasNode_createMeetingQ_self g title mtype date)) it hit hg asg hasg))

/-- After one ingestion call, every truthy attendee's Person exists. -/
theorem hasNode_store_attendee {g : Graph} {title mtype date : Str}
    {tps : List Str} {its : List AItem} {dcs : List Str} {ats : List Attendee}
    {a : Attendee} (ha : a ∈ ats) (har : truthyStr a.name = true) :
    (storeInNeo4j g title mtype date tps its dcs ats).hasNode
      (NodeData.isPersonNamed a.name) = true := by
  simp only [storeInNeo4j]
  exact hasNode_attendeesPhase_person ats _
    (hasNode_decisionsPhase_mono _ _
      (hasNode_actionsPhase_mono _ _
        (hasNode_topicsPhase_mono _ _
          (hasNode_createMeetingQ_self g title mtype date)))) a ha har

/-- With every truthy topic already present, one ingestion call leaves
the Topic count unchanged. -/
theorem countNodes_store_topic_eq {g : Graph} {title mtype date : Str}
    {tps : List Str} {its : List AItem} {dcs : List Str} {ats : List Attendee}
    (hall : ∀ t ∈ tps, truthyStr t = true →
      g.hasNode (NodeData.isTopicNamed t) = true) :
    (storeInNeo4j g title mtype date tps its dcs ats).countNodes
      NodeData.isTopic = g.countNodes NodeData.isTopic := by
  simp only [storeInNeo4j]
  rw [countNodes_attendeesPhase_not (fun nm => rfl) emailStable_isTopic,
    countNodes_decisionsPhase_not (fun c => rfl),
    countNodes_actionsPhase_not (fun d s pr => rfl) (fun a => rfl)]
  have hnodes := @nodes_topicsPhase_found title tps
    (createMeetingQ g title mtype date)
    (fun t ht htr => hasNode_createMeetingQ_mono (hall t ht htr))
  rw [countNodes_congr hnodes, countNodes_createMeetingQ]
  simp [NodeData.isTopic]

/-- With every guarded assignee and truthy attendee Person already
present, one ingestion call leaves the Person count unchanged. -/
theorem countNodes_store_person_eq {g : Graph} {title mtype date : Str}
    {tps : List Str} {its : List AItem} {dcs : List Str} {ats : List Attendee}
    (hits : ∀ it ∈ its,
      (truthyStr it.description && truthyOptStr it.assignee) = true →
      ∀ asg, it.assignee = some asg →
      g.hasNode (NodeData.isPersonNamed asg) = true)
    (hats : ∀ a ∈ ats, truthyStr a.name = true →
      g.hasNode (NodeData.isPersonNamed a.name) = true) :
    (storeInNeo4j g title mtype date tps its dcs ats).countNodes
      NodeData.isPerson = g.countNodes NodeData.isPerson := by
  simp only [storeInNeo4j]
  set g1 := createMeetingQ g title mtype date with hg1
  set g2 := tps.foldl (topicStep title) g1 with hg2
  set g3 := its.foldl (actionItemStep title) g2 with hg3
  set g4 := dcs.foldl (decisionStep title) g3 with hg4
  have hper2 : ∀ nm : Str, g.hasNode (NodeData.isPersonNamed nm) = true →
      g2.hasNode (NodeData.isPersonNamed nm) = true := fun nm h =>
    hasNode_topicsPhase_mono tps g1 (hasNode_createMeetingQ_mono h)
  have hper4 : ∀ nm : Str, g.hasNode (NodeData.isPersonNamed nm) = true →
      g4.hasNode (NodeData.isPersonNamed nm) = true := fun nm h =>
    hasNode_decisionsPhase_mono dcs g3
      (hasNode_actionsPhase_mono its g2 (hper2 nm h))
  have h4 : (ats.foldl (attendeeStep title) g4).countNodes NodeData.isPerson
      = g4.countNodes NodeData.isPerson :=
    countNodes_attendeesPhase_found emailStable_isPerson ats g4
      (fun a ha har => hper4 a.name (hats a ha har))
  have h3 : g4.countNodes NodeData.isPerson
      = g3.countNodes NodeData.isPerson := by
    rw [hg4]
    exact countNodes_decisionsPhase_not (fun c => rfl) dcs g3
  have h2 : g3.countNodes NodeData.isPerson
      = g2.countNodes NodeData.isPerson := by
    rw [hg3]
    exact countNodes_actionsPhase_found (fun d s pr => rfl) its g2
      (fun it hit hgd asg hasg => hper2 asg (hits it hit hgd asg hasg))
  have h1 : g2.countNodes NodeData.isPerson
      = g1.countNodes NodeData.isPerson := by
    rw [hg2]
    exact countNodes_topicsPhase_not (fun t => rfl) tps g1
  have h0 : g1.countNodes NodeData.isPerson
      = g.countNodes NodeData.isPerson := by
    rw [hg1, countNodes_createMeetingQ]
    simp [NodeData.isPerson]
  rw [h4, h3, h2, h1, h0]

/-- With a guarded item present, one ingestion call strictly increases
the ActionItem count. -/
theorem countNodes_store_action_lt {g : Graph} {title mtype date : Str}
    {tps : List Str} {its : List AItem} {dcs : List Str} {ats : List Attendee}
    (hex : ∃ it ∈ its,
      (truthyStr it.description && truthyOptStr it.assignee) = true) :
    g.countNodes NodeData.isAction <
      (storeInNeo4j g title mtype date tps its dcs ats).countNodes
        NodeData.isAction := by
  simp only [storeInNeo4j]
  set g1 := createMeetingQ g title mtype date with hg1
  set g2 := tps.foldl (topicStep title) g1 with hg2
  set g3 := its.foldl (actionItemStep title) g2 with hg3
  set g4 := dcs.foldl (decisionStep title) g3 with hg4
  have hm2 : g2.hasNode (NodeData.isMeetingTitled title) = true :=
    hasNode_topicsPhase_mono tps g1
      (hasNode_createMeetingQ_self g title mtype date)
  have hlt : g2.countNodes NodeData.isAction <
      g3.countNodes NodeData.isAction :=
    countNodes_actionsPhase_lt its g2 hm2 hex
  have hle0 : g.countNodes NodeData.isAction ≤
      g1.countNodes NodeData.isAction := by
    rw [hg1, countNodes_createMeetingQ]; omega
  have hle1 : g1.countNodes NodeData.isAction ≤
      g2.countNodes NodeData.isAction := countNodes_topicsPhase_le title _ tps g1
  have hle3 : g3.countNodes NodeData.isAction ≤
      g4.countNodes NodeData.isAction :=
    countNodes_decisionsPhase_le title _ dcs g3
  have hle4 : g4.countNodes NodeData.isAction ≤
      (ats.foldl (attendeeStep title) g4).countNodes NodeData.isAction :=
    countNodes_attendeesPhase_le title emailStable_isAction ats g4
  omega

/-- With a truthy decision present, one ingestion call strictly
increases the Decision count. -/
theorem countNodes_store_decision_lt {g : Graph} {title mtype date : Str}
    {tps : List Str} {its : List AItem} {dcs : List Str} {ats : List Attendee}
    (hex : ∃ d ∈ dcs, truthyStr d = true) :
    g.countNodes NodeData.isDecision <
      (storeInNeo4j g title mtype date tps its dcs ats).countNodes
        NodeData.isDecision := by
  simp only [storeInNeo4j]
  set g1 := createMeetingQ g title mtype date with hg1
  set g2 := tps.foldl (topicStep title) g1 with hg2
  set g3 := its.foldl (actionItemStep title) g2 with hg3
  set g4 := dcs.foldl (decisionStep title) g3 with hg4
  have hm3 : g3.hasNode (NodeData.isMeetingTitled title) = true :=
    hasNode_actionsPhase_mono its g2
      (hasNode_topicsPhase_mono tps g1
        (hasNode_createMeetingQ_self g title mtype date))
  have hlt : g3.countNodes NodeData.isDecision <
      g4.countNodes NodeData.isDecision :=
    countNodes_decisionsPhase_lt dcs g3 hm3 hex
  have hle0 : g.countNodes NodeData.isDecision ≤
      g1.countNodes NodeData.isDecision := by
    rw [hg1, countNodes_createMeetingQ]; omega
  have hle1 : g1.countNodes NodeData.isDecision ≤
      g2.countNodes NodeData.isDecision :=
    countNodes_topicsPhase_le title _ tps g1
  have hle2 : g2.countNodes NodeData.isDecision ≤
      g3.countNodes NodeData.isDecision :=
    countNodes_actionsPhase_le title _ its g2
  have hle4 : g4.countNodes NodeData.isDecision ≤
      (ats.foldl (attendeeStep title) g4).countNodes NodeData.isDecision :=
    countNodes_attendeesPhase_le title emailStable_isDecision ats g4
  omega

/-! ## C8: the persistence guard for action items -/

/-- C8: an extracted action item is persisted — creates ActionItem
nodes — exactly when its description is non-empty and an assignee was
resolved; an item missing either field is skipped silently, leaving the
graph unchanged (the resolver never yields an empty assignee string, so
the truthiness test coincides with "an assignee was resolved"). -/
theorem C8_action_item_persistence_guard (g : Graph) (title : Str)
    (it : AItem) (hasg : it.assignee ≠ some [])
    (hm : g.hasNode (NodeData.isMeetingTitled title) = true) :
    ((it.description = [] ∨ it.assignee = none) →
      actionItemStep title g it = g) ∧
    (g.countNodes NodeData.isAction <
        (actionItemStep title g it).countNodes NodeData.isAction ↔
      (it.description ≠ [] ∧ it.assignee ≠ none)) := by
  have hiff : (truthyStr it.description && truthyOptStr it.assignee) = true ↔
      (it.description ≠ [] ∧ it.assignee ≠ none) := by
    constructor
    · intro hg
      constructor
      · have h1 := Bool.and_elim_left hg
        cases hd : it.description with
        | nil => rw [hd] at h1; simp [truthyStr] at h1
        | cons c t => simp
      · have h2 := Bool.and_elim_right hg
        cases ha : it.assignee with
        | none => rw [ha] at h2; simp [truthyOptStr] at h2
        | some s => simp
    · rintro ⟨h1, h2⟩
      rw [Bool.and_eq_true]
      constructor
      · cases hd : it.description with
        | nil => exact absurd hd h1
        | cons c t => simp [truthyStr]
      · cases ha : it.assignee with
        | none => exact absurd ha h2
        | some s =>
          cases s with
          | nil => exact absurd ha hasg
          | cons c t => simp [truthyOptStr]
  have hnot : (it.description = [] ∨ it.assignee = none) →
      ¬ (truthyStr it.description && truthyOptStr it.assignee) = true := by
    intro h hg
    obtain ⟨h1, h2⟩ := hiff.mp hg
    rcases h with h | h
    · exact h1 h
    · exact h2 h
  refine ⟨?_, ?_, ?_⟩
  · intro h
    simp only [actionItemStep]
    rw [if_neg (hnot h)]
  · intro hlt
    by_contra hcon
    have hg : ¬ (truthyStr it.description && truthyOptStr it.assignee) = true :=
      fun hg => hcon (hiff.mp hg)
    simp only [actionItemStep] at hlt
    rw [if_neg hg] at hlt
    exact lt_irrefl _ hlt
  · intro hP
    have hg := hiff.mpr hP
    simp only [actionItemStep]
    rw [if_pos hg]
    obtain ⟨asg, hasg', -⟩ := truthyOptStr_some (Bool.and_elim_right hg)
    rw [countNodes_actionItemQ_action hasg']
    have := meetingIds_length_pos hm
    omega

/-- Witness for C8: a complete item against a graph holding its
Meeting persists. -/
theorem C8_action_item_persistence_guard_witness :
    gMeet.countNodes NodeData.isAction <
      (actionItemStep "T".data gMeet itemBob).countNodes NodeData.isAction :=
  (C8_action_item_persistence_guard gMeet "T".data itemBob
    (by decide) (by decide)).2.mpr (by decide)

/-! ## C6 amended: re-ingestion node counts -/

/-- C6 amended: re-ingesting the same record under the same title
leaves the Topic and Person node counts unchanged across the second run
and produces two distinct Meeting nodes (the Meeting count grows by
exactly two); the ActionItem and Decision counts grow strictly provided
at least one action item passes the persistence guard and at least one
decision is non-empty (without those the counts stay equal, see the
counterexample). -/
theorem C6_reingestion_counts (g : Graph) (title mtype date : Str)
    (tps : List Str) (its : List AItem) (dcs : List Str) (ats : List Attendee)
    (hex : ∃ it ∈ its,
      (truthyStr it.description && truthyOptStr it.assignee) = true)
    (hdx : ∃ d ∈ dcs, truthyStr d = true) :
    let g1 := storeInNeo4j g title mtype date tps its dcs ats
    let g2 := storeInNeo4j g1 title mtype date tps its dcs ats
    g2.countNodes NodeData.isTopic = g1.countNodes NodeData.isTopic ∧
    g2.countNodes NodeData.isPerson = g1.countNodes NodeData.isPerson ∧
    g2.countNodes NodeData.isMeeting = g.countNodes NodeData.isMeeting + 2 ∧
    g1.countNodes NodeData.isAction < g2.countNodes NodeData.isAction ∧
    g1.countNodes NodeData.isDecision < g2.countNodes NodeData.isDecision := by
  intro g1 g2
  refine ⟨?_, ?_, ?_, ?_, ?_⟩
  · exact countNodes_store_topic_eq
      (fun t ht htr => hasNode_store_topic ht htr)
  · exact countNodes_store_person_eq
      (fun it hit hgd asg hasg => hasNode_store_assignee hit hgd hasg)
      (fun a ha har => hasNode_store_attendee ha har)
  · calc g2.countNodes NodeData.isMeeting
        = g1.countNodes NodeData.isMeeting + 1 :=
          countNodes_store_meeting g1 title mtype date tps its dcs ats
      _ = g.countNodes NodeData.isMeeting + 1 + 1 :=
          congrArg (· + 1)
            (countNodes_store_meeting g title mtype date tps its dcs ats)
      _ = g.countNodes NodeData.isMeeting + 2 := rfl
  · exact countNodes_store_action_lt hex
  · exact countNodes_store_decision_lt hdx

/-- Witness for C6 amended at a concrete record with one guarded item
and one decision. -/
theorem C6_reingestion_counts_witness :
    (storeInNeo4j (storeInNeo4j emptyGraph "T".data "t".data "d".data
        ["db".data] [itemBob] ["ship".data] [⟨"Bob".data, none⟩])
        "T".data "t".data "d".data
        ["db".data] [itemBob] ["ship".data] [⟨"Bob".data, none⟩]).countNodes
      NodeData.isMeeting = emptyGraph.countNodes NodeData.isMeeting + 2 :=
  (C6_reingestion_counts emptyGraph "T".data "t".data "d".data ["db".data]
    [itemBob] ["ship".data] [⟨"Bob".data, none⟩]
    (by decide) (by decide)).2.2.1

/-! ## Store lemmas: edge sources -/

/-- Node creation leaves the edge list unchanged. -/
theorem edges_addNode (g : Graph) (d : NodeData) :
    ((g.addNode d).1).edges = g.edges := rfl

/-- A `MERGE` leaves the edge list unchanged. -/
theorem edges_mergeNode (g : Graph) (q : NodeData → Bool) (d : NodeData) :
    ((g.mergeNode q d).1).edges = g.edges := by
  unfold Graph.mergeNode
  cases g.nodes.find? (fun n => q n.data) with
  | some n => rfl
  | none => rfl

/-- The e-mail `SET` leaves the edge list unchanged. -/
theorem edges_setEmail (g : Graph) (pid : Nat) (e : Str) :
    (g.setEmail pid e).edges = g.edges := rfl

/-- Edge creation appends. -/
theorem edges_addEdges (g : Graph) (es : List GEdge) :
    (g.addEdges es).edges = g.edges ++ es := rfl

/-- Every edge after the topic query satisfies any predicate holding of
the old edges and of every topic edge out of a Meeting row. -/
theorem edges_pred_linkTopicQ {g : Graph} {title t : Str} {S : GEdge → Prop}
    (hold : ∀ e ∈ g.edges, S e)
    (hnew : ∀ m ∈ g.meetingIds title, ∀ dst, S ⟨m, relDiscusses, dst⟩) :
    ∀ e ∈ (linkTopicQ g title t).edges, S e := by
  intro e he
  simp only [linkTopicQ] at he
  by_cases hms : ((g.meetingIds title).isEmpty) = true
  · rw [if_pos hms] at he; exact hold e he
  · rw [if_neg hms, edges_addEdges, edges_mergeNode] at he
    rcases List.mem_append.mp he with he | he
    · exact hold e he
    · obtain ⟨m, hmem, rfl⟩ := List.mem_map.mp he
      exact hnew m hmem _

/-- Every edge after one action-item row satisfies any predicate
holding of the old edges, of ownership edges out of the row's Meeting,
and of all assignment edges. -/
theorem edges_pred_actionRow {it : AItem} {asg : Str} {g : Graph} {m : Nat}
    {S : GEdge → Prop} (hold : ∀ e ∈ g.edges, S e)
    (hha : ∀ dst, S ⟨m, relHasActionItem, dst⟩)
    (hasgS : ∀ src dst, S ⟨src, relAssignedTo, dst⟩) :
    ∀ e ∈ (actionRow it asg g m).edges, S e := by
  intro e he
  simp only [actionRow] at he
  rw [edges_addEdges, edges_mergeNode, edges_addEdges, edges_addNode] at he
  rcases List.mem_append.mp he with he | he
  · rcases List.mem_append.mp he with he | he
    · exact hold e he
    · rw [List.mem_singleton] at he; subst he; exact hha _
  · rw [List.mem_singleton] at he; subst he; exact hasgS _ _

/-- Edge predicate preservation for the action-item row fold. -/
theorem edges_pred_foldl_actionRow {it : AItem} {asg : Str} {S : GEdge → Prop}
    (hasgS : ∀ src dst, S ⟨src, relAssignedTo, dst⟩) :
    ∀ (l : List Nat) (g : Graph), (∀ e ∈ g.edges, S e) →
      (∀ m ∈ l, ∀ dst, S ⟨m, relHasActionItem, dst⟩) →
      ∀ e ∈ (l.foldl (actionRow it asg) g).edges, S e := by
  intro l
  induction l with
  | nil => intro g hold _ e he; exact hold e he
  | cons m t ih =>
    intro g hold hl e he
    rw [List.foldl_cons] at he
    exact ih _ (edges_pred_actionRow hold (hl m (by simp)) hasgS)
      (fun m' hm' => hl m' (by simp [hm'])) e he

/-- Edge predicate preservation for the action-item query. -/
theorem edges_pred_actionItemQ {g : Graph} {title : Str} {it : AItem}
    {S : GEdge → Prop} (hold : ∀ e ∈ g.edges, S e)
    (hnew : ∀ m ∈ g.meetingIds title, ∀ dst, S ⟨m, relHasActionItem, dst⟩)
    (hasgS : ∀ src dst, S ⟨src, relAssignedTo, dst⟩) :
    ∀ e ∈ (actionItemQ g title it).edges, S e := by
  cases hasg : it.assignee with
  | none => simp only [actionItemQ, hasg]; exact hold
  | some asg =>
    simp only [actionItemQ, hasg]
    exact edges_pred_foldl_actionRow hasgS _ g hold hnew

/-- Edge predicate preservation for one decision row. -/
theorem edges_pred_decisionRow {content : Str} {g : Graph} {m : Nat}
    {S : GEdge → Prop} (hold : ∀ e ∈ g.edges, S e)
    (hmd : ∀ dst, S ⟨m, relMadeDecision, dst⟩) :
    ∀ e ∈ (decisionRow content g m).edges, S e := by
  intro e he
  simp only [decisionRow] at he
  rw [edges_addEdges, edges_addNode] at he
  rcases List.mem_append.mp he with he | he
  · exact hold e he
  · rw [List.mem_singleton] at he; subst he; exact hmd _

/-- Edge predicate preservation for the decision row fold. -/
theorem edges_pred_foldl_decisionRow {content : Str} {S : GEdge → Prop} :
    ∀ (l : List Nat) (g : Graph), (∀ e ∈ g.edges, S e) →
      (∀ m ∈ l, ∀ dst, S ⟨m, relMadeDecision, dst⟩) →
      ∀ e ∈ (l.foldl (decisionRow content) g).edges, S e := by
  intro l
  induction l with
  | nil => intro g hold _ e he; exact hold e he
  | cons m t ih =>
    intro g hold hl e he
    rw [List.foldl_cons] at he
    exact ih _ (edges_pred_decisionRow hold (hl m (by simp)))
      (fun m' hm' => hl m' (by simp [hm'])) e he

/-- Edge predicate preservation for the decision query. -/
theorem edges_pred_decisionQ {g : Graph} {title content : Str}
    {S : GEdge → Prop} (hold : ∀ e ∈ g.edges, S e)
    (hnew : ∀ m ∈ g.meetingIds title, ∀ dst, S ⟨m, relMadeDecision, dst⟩) :
    ∀ e ∈ (decisionQ g title content).edges, S e := by
  simp only [decisionQ]
  exact edges_pred_foldl_decisionRow _ g hold hnew

/-- Edge predicate preservation for the attendee query. -/
theorem edges_pred_attendeeQ {g : Graph} {title : Str} {att : Attendee}
    {S : GEdge → Prop} (hold : ∀ e ∈ g.edges, S e)
    (hnew : ∀ m ∈ g.meetingIds title, ∀ dst, S ⟨m, relHasAttendee, dst⟩) :
    ∀ e ∈ (attendeeQ g title att).edges, S e := by
  intro e he
  simp only [attendeeQ] at he
  by_cases hms : ((g.meetingIds title).isEmpty) = true
  · rw [if_pos hms] at he; exact hold e he
  · rw [if_neg hms] at he
    cases hem : att.email with
    | none =>
      rw [hem] at he
      rw [edges_mergeNode] at he
      exact hold e he
    | some em =>
      rw [hem] at he
      rw [edges_addEdges, edges_setEmail, edges_mergeNode] at he
      rcases List.mem_append.mp he with he | he
      · exact hold e he
      · obtain ⟨m, hmem, rfl⟩ := List.mem_map.mp he
        exact hnew m hmem _

/-! ## C2 amended: edge sources of one ingestion call -/

/-- C2 amended: the queries attach edges to every Meeting node whose
title matches the call's title; hence when no pre-existing Meeting node
shares the title, every discuss, has-action-item, made-decision and
has-attendee edge created by the call (every new edge other than
assigned-to edges) has the freshly created Meeting node as its source,
and pre-existing Meeting nodes receive no new edges.  With a duplicate
title the pre-existing Meetings receive edges too (see the
counterexample). -/
theorem C2_edges_only_fresh_meeting (g : Graph) (title mtype date : Str)
    (tps : List Str) (its : List AItem) (dcs : List Str) (ats : List Attendee)
    (h0 : g.meetingIds title = []) :
    ∀ e ∈ (storeInNeo4j g title mtype date tps its dcs ats).edges,
      e ∈ g.edges ∨ e.rel = relAssignedTo ∨ e.src = g.nextId := by
  have hstepT : ∀ (h : Graph) (t : Str),
      (h.meetingIds title = [g.nextId] ∧
        ∀ e ∈ h.edges, e ∈ g.edges ∨ e.rel = relAssignedTo ∨ e.src = g.nextId) →
      ((topicStep title h t).meetingIds title = [g.nextId] ∧
        ∀ e ∈ (topicStep title h t).edges,
          e ∈ g.edges ∨ e.rel = relAssignedTo ∨ e.src = g.nextId) := by
    intro h t hinv
    obtain ⟨hm, he⟩ := hinv
    constructor
    · simp only [topicStep]
      by_cases ht : truthyStr t = true
      · rw [if_pos ht, meetingIds_linkTopicQ, hm]
      · rw [if_neg ht, hm]
    · simp only [topicStep]
      by_cases ht : truthyStr t = true
      · rw [if_pos ht]
        refine edges_pred_linkTopicQ he ?_
        intro m hmem dst
        rw [hm, List.mem_singleton] at hmem
        subst hmem
        exact Or.inr (Or.inr rfl)
      · rw [if_neg ht]; exact he
  have hstepA : ∀ (h : Graph) (it : AItem),
      (h.meetingIds title = [g.nextId] ∧
        ∀ e ∈ h.edges, e ∈ g.edges ∨ e.rel = relAssignedTo ∨ e.src = g.nextId) →
      ((actionItemStep title h it).meetingIds title = [g.nextId] ∧
        ∀ e ∈ (actionItemStep title h it).edges,
          e ∈ g.edges ∨ e.rel = relAssignedTo ∨ e.src = g.nextId) := by
    intro h it hinv
    obtain ⟨hm, he⟩ := hinv
    refine ⟨by rw [meetingIds_actionItemStep, hm], ?_⟩
    simp only [actionItemStep]
    by_cases hg : (truthyStr it.description && truthyOptStr it.assignee) = true
    · rw [if_pos hg]
      refine edges_pred_actionItemQ he ?_ ?_
      · intro m hmem dst
        rw [hm, List.mem_singleton] at hmem
        subst hmem
        exact Or.inr (Or.inr rfl)
      · intro src dst
        exact Or.inr (Or.inl rfl)
    · rw [if_neg hg]; exact he
  have hstepD : ∀ (h : Graph) (d : Str),
      (h.meetingIds title = [g.nextId] ∧
        ∀ e ∈ h.edges, e ∈ g.edges ∨ e.rel = relAssignedTo ∨ e.src = g.nextId) →
      ((decisionStep title h d).meetingIds title = [g.nextId] ∧
        ∀ e ∈ (decisionStep title h d).edges,
          e ∈ g.edges ∨ e.rel = relAssignedTo ∨ e.src = g.nextId) := by
    intro h d hinv
    obtain ⟨hm, he⟩ := hinv
    constructor
    · simp only [decisionStep]
      by_cases hd : truthyStr d = true
      · rw [if_pos hd, meetingIds_decisionQ, hm]
      · rw [if_neg hd, hm]
    · simp only [decisionStep]
      by_cases hd : truthyStr d = true
      · rw [if_pos hd]
        refine edges_pred_decisionQ he ?_
        intro m hmem dst
        rw [hm, List.mem_singleton] at hmem
        subst hmem
        exact Or.inr (Or.inr rfl)
      · rw [if_neg hd]; exact he
  have hstepAt : ∀ (h : Graph) (a : Attendee),
      (h.meetingIds title = [g.nextId] ∧
        ∀ e ∈ h.edges, e ∈ g.edges ∨ e.rel = relAssignedTo ∨ e.src = g.nextId) →
      ((attendeeStep title h a).meetingIds title = [g.nextId] ∧
        ∀ e ∈ (attendeeStep title h a).edges,
          e ∈ g.edges ∨ e.rel = relAssignedTo ∨ e.src = g.nextId) := by
    intro h a hinv
    obtain ⟨hm, he⟩ := hinv
    constructor
    · simp only [attendeeStep]
      by_cases ha : truthyStr a.name = true
      · rw [if_pos ha, meetingIds_attendeeQ, hm]
      · rw [if_neg ha, hm]
    · simp only [attendeeStep]
      by_cases ha : truthyStr a.name = true
      · rw [if_pos ha]
        refine edges_pred_attendeeQ he ?_
        intro m hmem dst
        rw [hm, List.mem_singleton] at hmem
        subst hmem
        exact Or.inr (Or.inr rfl)
      · rw [if_neg ha]; exact he
  have hInv1 : (createMeetingQ g title mtype date).meetingIds title =
        [g.nextId] ∧
      ∀ e ∈ (createMeetingQ g title mtype date).edges,
        e ∈ g.edges ∨ e.rel = relAssignedTo ∨ e.src = g.nextId := by
    constructor
    · simp only [createMeetingQ]
      rw [meetingIds_addNode_meeting, h0]
      rfl
    · intro e he
      exact Or.inl he
  have hfinal := foldl_graph_pres hstepAt ats _
    (foldl_graph_pres hstepD dcs _
      (foldl_graph_pres hstepA its _
        (foldl_graph_pres hstepT tps _ hInv1)))
  intro e he
  simp only [storeInNeo4j] at he
  exact hfinal.2 e he

/-- Witness for C2 amended: the discuss edge of a concrete call on a
store with no Meeting of the title satisfies the source condition. -/
theorem C2_edges_only_fresh_meeting_witness :
    (⟨0, relDiscusses, 1⟩ : GEdge) ∈ emptyGraph.edges ∨
    (⟨0, relDiscusses, 1⟩ : GEdge).rel = relAssignedTo ∨
    (⟨0, relDiscusses, 1⟩ : GEdge).src = emptyGraph.nextId :=
  C2_edges_only_fresh_meeting emptyGraph "T".data "t".data "d".data
    ["db".data] [] [] [] (by decide) ⟨0, relDiscusses, 1⟩ (by decide)

end MeetingNotes
